import Mathlib

/-!
Verification of the paginated, cancellable, streaming query execution
pipeline of the SQL workbench application (source: `src/app.py`).

The development shallowly embeds:
* the statement splitter `DuckDBSQLApp.split_sql_statements`,
* the query classifier and pagination rewriter used by
  `StreamingQueryThread.run`,
* the streaming execution worker `StreamingQueryThread.run` itself,
  over an abstract execution-engine model, and
* the worker-replacement step of `DuckDBSQLApp.execute_streaming_query`.

Strings are modelled as `List Char`.  Python string helpers (`strip`,
`rstrip`, `upper`, `split('\n')`) are modelled for the ASCII range that
the application manipulates.
-/

namespace Workbench

/-- Characters stripped by Python's default `str.strip()` (ASCII range). -/
def isPySpace (c : Char) : Bool :=
  c = ' ' || c = '\t' || c = '\n' || c = '\r' || c = '\x0b' || c = '\x0c'

/-- Remove trailing characters satisfying `p` (Python `rstrip`). -/
def dropTrailing (p : Char → Bool) (s : List Char) : List Char :=
  (s.reverse.dropWhile p).reverse

/-- Python `str.strip()` with no arguments. -/
def pyStrip (s : List Char) : List Char :=
  dropTrailing isPySpace (s.dropWhile isPySpace)

/-- Python `str.rstrip()` with no arguments. -/
def pyRstripWs (s : List Char) : List Char :=
  dropTrailing isPySpace s

/-- Python `str.rstrip(';')`. -/
def pyRstripSemi (s : List Char) : List Char :=
  dropTrailing (fun c => c = ';') s

/-- Python `str.upper()` (ASCII). -/
def upperList (s : List Char) : List Char :=
  s.map Char.toUpper

/-- Decimal rendering of a natural number, as used by Python f-strings. -/
def natChars (n : Nat) : List Char :=
  (Nat.repr n).data

/-- Python `str.split('\n')`. -/
def splitNl : List Char → List (List Char)
  | [] => [[]]
  | c :: rest =>
    if c = '\n' then [] :: splitNl rest
    else
      match splitNl rest with
      | [] => [[c]]
      | l :: ls => (c :: l) :: ls

/-! ## Statement splitter (`DuckDBSQLApp.split_sql_statements`, app.py:4637) -/

/-- Scanner state of `split_sql_statements`: accumulated statements, the
current statement buffer, and the string/comment flags.  `in_comment` is
declared (and never set) exactly as in the source. -/
structure SplitState where
  statements : List (List Char)
  current : List Char
  in_string : Bool
  string_char : Option Char
  in_comment : Bool
deriving Repr, DecidableEq

def initSplitState : SplitState :=
  ⟨[], [], false, none, false⟩

/-- Finalisation of one statement buffer: `stmt = ''.join(cur).strip()`;
if `stmt` is nonempty and not `";"`, append `stmt.rstrip(';').strip()`. -/
def emitStmt (stmts : List (List Char)) (cur : List Char) : List (List Char) :=
  let stmt := pyStrip cur
  if stmt ≠ [] ∧ stmt ≠ [';'] then stmts ++ [pyStrip (pyRstripSemi stmt)] else stmts

/-- The string-literal handling of one character (app.py:4658-4669):
enter a string on a quote, and leave it on a matching quote that is not
preceded by a backslash. -/
def quoteStep (st : SplitState) (prev : Option Char) (c : Char) : SplitState :=
  if (c = '"' ∨ c = '\'') ∧ st.in_comment = false then
    if st.in_string = false then
      { st with in_string := true, string_char := some c }
    else if some c = st.string_char then
      if prev = some '\\' then st
      else { st with in_string := false, string_char := none }
    else st
  else st

/-- The inner `while i < len(line)` loop of `split_sql_statements`.
`prev` is `line[i-1]` (`none` at the start of a line). -/
def processChars (st : SplitState) (prev : Option Char) : List Char → SplitState
  | [] => st
  | c :: rest =>
    if st.in_string = false ∧ c = '-' ∧ rest.head? = some '-' then
      -- line comment: the rest of the line is appended verbatim
      { st with current := st.current ++ c :: rest }
    else
      let st1 := quoteStep st prev c
      if c = ';' ∧ st1.in_string = false ∧ st1.in_comment = false then
        processChars
          { st1 with
            statements := emitStmt st1.statements (st1.current ++ [c]),
            current := [] } (some c) rest
      else
        processChars { st1 with current := st1.current ++ [c] } (some c) rest

/-- One iteration of the `for line in lines` loop: scan the line, then
append `'\n'` to a nonempty statement buffer. -/
def processLine (st : SplitState) (line : List Char) : SplitState :=
  let st' := processChars st none line
  if st'.current ≠ [] then { st' with current := st'.current ++ ['\n'] } else st'

/-- `DuckDBSQLApp.split_sql_statements` (app.py:4637-4693). -/
def split_sql_statements (query_text : List Char) : List (List Char) :=
  let st := (splitNl query_text).foldl processLine initSplitState
  (emitStmt st.statements st.current).filter (fun s => s ≠ [])

-- Sanity checks against the Python implementation's observed behaviour.
example : split_sql_statements ("SELECT 1; SELECT 2;").data
    = [("SELECT 1").data, ("SELECT 2").data] := by decide
example : split_sql_statements [] = [] := by decide
example : split_sql_statements (";").data = [] := by decide
example : split_sql_statements ("SELECT ';' AS a; SELECT 2;").data
    = [("SELECT ';' AS a").data, ("SELECT 2").data] := by decide
example : split_sql_statements ("SELECT 1 -- c\n;SELECT 2").data
    = [("SELECT 1 -- c").data, ("SELECT 2").data] := by decide
example : split_sql_statements ("SELECT 1 -- c;SELECT 2").data
    = [("SELECT 1 -- c;SELECT 2").data] := by decide
example : split_sql_statements ("SELECT 'a'';b' ; X").data
    = [("SELECT 'a'';b'").data, ("X").data] := by decide
example : split_sql_statements ("SELECT 'a\\'';b'").data
    = [("SELECT 'a\\''").data, ("b'").data] := by decide
example : split_sql_statements ("SELECT 1 -- x;").data
    = [("SELECT 1 -- x").data] := by decide

/-! ## Query classifier and pagination rewriter (`StreamingQueryThread.run`) -/

/-- `query_upper = self.query.strip().upper()` (app.py:1620). -/
def queryUpperOf (q : List Char) : List Char :=
  upperList (pyStrip q)

/-- `is_select_query = query_upper.startswith('SELECT')` (app.py:1621). -/
def isSelectQuery (q : List Char) : Bool :=
  ("SELECT").data.isPrefixOf (queryUpperOf q)

/-- `\w` of Python `re` (ASCII range). -/
def isWordChar (c : Char) : Bool :=
  c.isAlpha || c.isDigit || c = '_'

/-- `\s` of Python `re` (ASCII range). -/
def isReSpace (c : Char) : Bool :=
  c = ' ' || c = '\t' || c = '\n' || c = '\r' || c = '\x0b' || c = '\x0c'

/-- Does `\s+\d+\b` match at the head of `rest` (the part of the pattern
after the literal `LIMIT`)?  Because whitespace and digits are disjoint
character classes and digits are word characters, the backtracking
search of `re` is equivalent to this greedy scan. -/
def limitTailMatches (rest : List Char) : Bool :=
  let afterWs := rest.dropWhile isReSpace
  (rest.takeWhile isReSpace).length > 0 &&
  (let afterDs := afterWs.dropWhile Char.isDigit
   (afterWs.takeWhile Char.isDigit).length > 0 &&
   (afterDs.isEmpty || !isWordChar afterDs.headI))

/-- Does the pattern `LIMIT\s+\d+\b` (case-insensitive) match at the head
of `s`?  The leading `\b` is handled by the caller. -/
def limitPatternHere (s : List Char) : Bool :=
  decide (upperList (s.take 5) = ("LIMIT").data) && limitTailMatches (s.drop 5)

/-- Scan for `\bLIMIT\s+\d+\b`: `prevIsWord` records whether the previous
character is a word character (the `\b` condition before `LIMIT`). -/
def limitScan (prevIsWord : Bool) : List Char → Bool
  | [] => false
  | c :: rest =>
    (!prevIsWord && limitPatternHere (c :: rest)) || limitScan (isWordChar c) rest

/-- `re.search(r'\bLIMIT\s+\d+\b', query_upper, re.IGNORECASE)` viewed as a
Boolean (app.py:1646-1647). -/
def hasLimitClause (u : List Char) : Bool :=
  limitScan false u

/-- `clean_query = self.query.rstrip().rstrip(';')` (app.py:1630/1653/1658). -/
def cleanQueryOf (q : List Char) : List Char :=
  pyRstripSemi (pyRstripWs q)

/-- The count statement `SELECT COUNT(*) FROM (<clean>) AS count_subquery`
(app.py:1631). -/
def countQueryOf (q : List Char) : List Char :=
  ("SELECT COUNT(*) FROM (").data ++ cleanQueryOf q ++ (") AS count_subquery").data

/-- The paginated statement built at app.py:1643-1659: wrap when an
existing `LIMIT <int>` clause is detected, append otherwise. -/
def paginatedQueryOf (q : List Char) (batchSize offset : Nat) : List Char :=
  if hasLimitClause (queryUpperOf q) then
    ("SELECT * FROM (").data ++ cleanQueryOf q ++ (") AS subquery LIMIT ").data
      ++ natChars batchSize ++ (" OFFSET ").data ++ natChars offset
  else
    cleanQueryOf q ++ (" LIMIT ").data ++ natChars batchSize
      ++ (" OFFSET ").data ++ natChars offset

-- Sanity checks (classifier and rewriter).
/-- The pagination rule exactly as the specification words it (§4.3):
detect an existing `LIMIT <integer>` clause with the word-boundary-aware
case-insensitive search; if present, wrap the semicolon-stripped original
in a subquery and apply a fresh `LIMIT N OFFSET O` on the wrapper; if
absent, append ` LIMIT N OFFSET O` directly to the semicolon-stripped
original, leaving it otherwise unmodified. -/
def specPaginate (q : List Char) (n o : Nat) : List Char :=
  let stripped := pyRstripSemi (pyRstripWs q)
  let fresh := (" LIMIT ").data ++ natChars n ++ (" OFFSET ").data ++ natChars o
  if hasLimitClause (queryUpperOf q) then
    ("SELECT * FROM (").data ++ stripped ++ (") AS subquery").data ++ fresh
  else
    stripped ++ fresh

/-- `limitOccHarmless p u = true` states that every case-insensitive
occurrence of the letters `LIMIT` in `u` is harmless for the clause
detection: either the character immediately before it is a word
character (the occurrence is part of a longer identifier), or it is not
followed by whitespace, an integer and a word boundary.  (An occurrence
directly followed by a word character is covered by the second
disjunct, since `\s+` then fails.)  `p` records whether the character
preceding `u` is a word character. -/
def limitOccHarmless : Bool → List Char → Bool
  | _, [] => true
  | p, c :: rest =>
    (!(decide (upperList ((c :: rest).take 5) = ("LIMIT").data)) || p
      || !(limitTailMatches ((c :: rest).drop 5)))
    && limitOccHarmless (isWordChar c) rest

example : isSelectQuery ("  select * from t").data = true := by decide
example : isSelectQuery ("INSERT INTO t VALUES (1)").data = false := by decide
example : isSelectQuery ("WITH x AS (SELECT 1) SELECT * FROM x").data = false := by
  decide
example : hasLimitClause ("SELECT * FROM T LIMIT 5").data = true := by decide
example : hasLimitClause ("SELECT * FROM T").data = false := by decide
example : hasLimitClause ("SELECT UNLIMITED 5 FROM T").data = false := by decide
example : hasLimitClause ("SELECT LIMITS 5 FROM T").data = false := by decide
example : hasLimitClause ("SELECT 'NO LIMIT HERE' FROM T").data = false := by decide
example : hasLimitClause ("SELECT 'LIMIT 5' FROM T").data = true := by decide
example : paginatedQueryOf ("SELECT * FROM t").data 10 20
    = ("SELECT * FROM t LIMIT 10 OFFSET 20").data := by decide
example : paginatedQueryOf ("SELECT * FROM t LIMIT 5;").data 10 0
    = ("SELECT * FROM (SELECT * FROM t LIMIT 5) AS subquery LIMIT 10 OFFSET 0").data := by
  decide

/-! ## Streaming execution worker (`StreamingQueryThread`, app.py:1596-1774)

The worker runs against an abstract execution engine.  A `Cursor` models
the result of `connection.execute`: the column metadata, the row stream,
and failure behaviour of `fetchmany`/`fetchall`.  The cooperative
cancellation flag is modelled by the index of the first flag read that
observes `True` (`none` when cancellation is never requested): the flag
is written once by the control thread and only ever goes from `False` to
`True`, so the sequence of values returned by successive reads is
monotone. -/

/-- A result-set cell, as manipulated by the chunk-processing loop. -/
inductive Cell where
  | vNull
  | vInt (i : Int)
  | vStr (s : List Char)
  | vBytes (b : List Nat)
deriving Repr, DecidableEq

/-- The cell clamping transform of app.py:1712-1720: large binary values
become a size summary, large strings are truncated with a marker. -/
def clampCell : Cell → Cell
  | .vBytes b =>
    if b.length > 10000 then
      .vStr (("<Binary data: ").data ++ natChars b.length ++ (" bytes>").data)
    else .vBytes b
  | .vStr s =>
    if s.length > 50000 then .vStr (s.take 50000 ++ ("... (truncated)").data)
    else .vStr s
  | c => c

def clampRow (r : List Cell) : List Cell :=
  r.map clampCell

/-- Cursor model: `description` is the column-name list (`none` when the
statement exposes no metadata), `rows` the rows the statement yields,
`fetchmanyFailAt` the index of the `fetchmany` call that raises (if any),
and `fetchallFails` whether `fetchall` raises. -/
structure Cursor where
  description : Option (List (List Char))
  rows : List (List Cell)
  fetchmanyFailAt : Option Nat
  fetchmanyErrMsg : List Char
  fetchallFails : Bool
deriving Repr

/-- Engine model: the outcome of executing the count statement (followed
by `fetchone`, whose result may be absent) and of executing the main
(paginated or cleaned) statement. -/
structure Engine where
  countExec : Except (List Char) (Option Int)
  mainExec : Except (List Char) Cursor

/-- Events emitted by the worker via its Qt signals. -/
inductive Event where
  | progress (p : Nat)
  | batchReady (cols : List (List Char)) (rows : List (List Cell)) (total : Int)
      (hasMore : Bool)
  | errorOccurred (msg : List Char)
deriving Repr, DecidableEq

/-- Value returned by the `k`-th read of `self._is_cancelled` when the
flag becomes observable from read index `n` (`cf = some n`). -/
def cancelObserved (cf : Option Nat) (k : Nat) : Bool :=
  match cf with
  | none => false
  | some n => n ≤ k

/-- Result of the chunked fetch loop (app.py:1700-1729). -/
inductive FetchRes where
  | finished (k : Nat) (evs : List Event) (batch : List (List Cell))
  | cancelled (k : Nat) (evs : List Event)
  | raised (k : Nat) (evs : List Event) (msg : List Char)
deriving Repr

/-- One-step structural version of the `while row_count < self.batch_size`
fetch loop of the SELECT path (app.py:1700-1729): fetch up to 1000 rows
per `fetchmany` call, stop on an empty chunk, check the cancellation
flag after every chunk, clamp each cell, and emit incremental progress.
`k` counts flag reads performed so far across the whole run.  `fuel`
bounds the number of iterations; every iteration consumes at least one
row from `remaining`, so `remaining.length + 1` units of fuel always
suffice (see `fetchLoop`). -/
def fetchLoopAux (cf : Option Nat) (failAt : Option Nat) (failMsg : List Char)
    (batchSize : Nat) : Nat → Nat → Nat → Nat → List (List Cell) → List Event →
    List (List Cell) → FetchRes
  | 0, _, k, _, acc, evs, _ => .finished k evs acc
  | fuel + 1, chunkIdx, k, rowCount, acc, evs, remaining =>
    if batchSize ≤ rowCount then .finished k evs acc
    else if failAt = some chunkIdx then .raised k evs failMsg
    else
      let chunk := remaining.take 1000
      if chunk = [] then .finished k evs acc
      else if cancelObserved cf k then .cancelled (k + 1) evs
      else
        let takeN := min (batchSize - rowCount) chunk.length
        let rowCount' := rowCount + takeN
        let prog := min 95 (75 + rowCount' * 20 / batchSize)
        fetchLoopAux cf failAt failMsg batchSize fuel (chunkIdx + 1) (k + 1)
          rowCount' (acc ++ (chunk.take takeN).map clampRow)
          (evs ++ [.progress prog]) (remaining.drop 1000)

/-- The chunked fetch loop of the SELECT path, started with enough fuel
for its row stream. -/
def fetchLoop (cf : Option Nat) (failAt : Option Nat) (failMsg : List Char)
    (batchSize : Nat) (chunkIdx k rowCount : Nat) (acc : List (List Cell))
    (evs : List Event) (remaining : List (List Cell)) : FetchRes :=
  fetchLoopAux cf failAt failMsg batchSize (remaining.length + 1) chunkIdx k
    rowCount acc evs remaining

/-- The non-SELECT fetch block (app.py:1731-1754): `fetchall`, falling
back to a synthetic acknowledgment row when the statement yields no
fetchable rows or `fetchall` raises. -/
def nonSelectFetch (cur : Cursor) : List (List Cell) :=
  if cur.fetchallFails then [[Cell.vStr ("Query executed successfully").data]]
  else if cur.rows = [] then [[Cell.vStr ("Query executed successfully").data]]
  else cur.rows.map clampRow

/-- Output of one worker invocation: the emitted events, in order, the
statements submitted to the engine, in order, and the number of reads of
the `_is_cancelled` flag the invocation performed. -/
structure RunOut where
  events : List Event
  calls : List (List Char)
  reads : Nat
deriving Repr, DecidableEq

/-- Message of the `TypeError` raised by iterating a `None` description
in the SELECT path (app.py:1667). -/
def noneIterMsg : List Char :=
  ("'NoneType' object is not iterable").data

/-- `total_count` after the count step (app.py:1625-1638): on success the
value fetched (or 0 when `fetchone` returns nothing), on any failure the
sentinel -1. -/
def countTotalOf (e : Engine) : Int :=
  match e.countExec with
  | .ok r => match r with | some v => v | none => 0
  | .error _ => -1

/-- `StreamingQueryThread.run` (app.py:1614-1774). -/
def runStreaming (e : Engine) (query : List Char) (batchSize offset : Nat)
    (cf : Option Nat) : RunOut :=
  let evs0 : List Event := [.progress 0]
  if isSelectQuery query then
    -- SELECT path: count, rewrite, execute, chunked fetch.
    let countQ := countQueryOf query
    let totalCount : Int := countTotalOf e
    let evs1 := evs0 ++ [.progress 25]
    let calls1 := [countQ]
    if cancelObserved cf 0 then ⟨evs1, calls1, 1⟩
    else
      let paginatedQ := paginatedQueryOf query batchSize offset
      let evs2 := evs1 ++ [.progress 50]
      if cancelObserved cf 1 then ⟨evs2, calls1, 2⟩
      else
        let calls2 := calls1 ++ [paginatedQ]
        match e.mainExec with
        | .error msg =>
          if cancelObserved cf 2 then ⟨evs2, calls2, 3⟩
          else ⟨evs2 ++ [.errorOccurred msg], calls2, 3⟩
        | .ok cur =>
          match cur.description with
          | none =>
            if cancelObserved cf 2 then ⟨evs2, calls2, 3⟩
            else ⟨evs2 ++ [.errorOccurred noneIterMsg], calls2, 3⟩
          | some columns =>
            let evs3 := evs2 ++ [.progress 75]
            if cancelObserved cf 2 then ⟨evs3, calls2, 3⟩
            else
              match fetchLoop cf cur.fetchmanyFailAt cur.fetchmanyErrMsg batchSize
                  0 3 0 [] [] cur.rows with
              | .cancelled k levs => ⟨evs3 ++ levs, calls2, k⟩
              | .raised k levs msg =>
                if cancelObserved cf k then ⟨evs3 ++ levs, calls2, k + 1⟩
                else ⟨evs3 ++ levs ++ [.errorOccurred msg], calls2, k + 1⟩
              | .finished k levs batch =>
                if cancelObserved cf k then ⟨evs3 ++ levs, calls2, k + 1⟩
                else
                  let hasMore := decide (batch.length = batchSize)
                    && (decide (totalCount = -1)
                        || decide ((offset : Int) + (batchSize : Int) < totalCount))
                  ⟨evs3 ++ levs
                    ++ [.progress 100, .batchReady columns batch totalCount hasMore],
                   calls2, k + 1⟩
  else
    -- Non-SELECT path: execute directly, no pagination.
    let evs1 := evs0 ++ [.progress 25]
    if cancelObserved cf 0 then ⟨evs1, [], 1⟩
    else
      let cleanQ := cleanQueryOf query
      let calls1 := [cleanQ]
      match e.mainExec with
      | .error msg =>
        if cancelObserved cf 1 then ⟨evs1, calls1, 2⟩
        else ⟨evs1 ++ [.errorOccurred msg], calls1, 2⟩
      | .ok cur =>
        let columns :=
          match cur.description with
          | some d => if d = [] then [("Result").data] else d
          | none => [("Result").data]
        let evs2 := evs1 ++ [.progress 75]
        if cancelObserved cf 1 then ⟨evs2, calls1, 2⟩
        else
          let batch := nonSelectFetch cur
          if cancelObserved cf 2 then ⟨evs2, calls1, 3⟩
          else ⟨evs2 ++ [.progress 100, .batchReady columns batch 1 false], calls1, 3⟩

-- Sanity checks for the worker model.
example :
    (runStreaming
      ⟨.ok (some 5),
       .ok ⟨some [("c").data], [[Cell.vInt 1], [Cell.vInt 2], [Cell.vInt 3]],
            none, [], false⟩⟩
      ("SELECT * FROM t").data 2 0 none).events
    = [.progress 0, .progress 25, .progress 50, .progress 75, .progress 95,
       .progress 100,
       .batchReady [("c").data] [[Cell.vInt 1], [Cell.vInt 2]] 5 true] := by
  decide

example :
    (runStreaming
      ⟨.ok (some 5),
       .ok ⟨some [("c").data], [[Cell.vInt 1], [Cell.vInt 2], [Cell.vInt 3]],
            none, [], false⟩⟩
      ("SELECT * FROM t").data 2 0 (some 3)).events
    = [.progress 0, .progress 25, .progress 50, .progress 75] := by
  decide

example :
    (runStreaming ⟨.ok (some 5), .error ("boom").data⟩
      ("SELECT * FROM t").data 2 0 none).events
    = [.progress 0, .progress 25, .progress 50, .errorOccurred ("boom").data] := by
  decide

example :
    (runStreaming ⟨.ok none, .ok ⟨none, [], none, [], false⟩⟩
      ("CREATE TABLE t (x INT)").data 10 0 none).events
    = [.progress 0, .progress 25, .progress 75, .progress 100,
       .batchReady [("Result").data]
         [[Cell.vStr ("Query executed successfully").data]] 1 false] := by
  decide

/-! ## Worker replacement on submit (`execute_streaming_query`, app.py:5173) -/

/-- Session-level actions taken by `execute_streaming_query` when a tab
submits a query. -/
inductive SessionAct where
  | cancelPrev (id : Nat)
  | waitPrev (id : Nat)
  | startWorker (id : Nat)
deriving Repr, DecidableEq

/-- The worker-replacement step of `execute_streaming_query`
(app.py:5213-5228): an existing streaming worker is cancelled and
joined, then the new worker is unconditionally started. -/
def executeStreamingSubmit (prevWorker : Option Nat) (newId : Nat) :
    List SessionAct :=
  (match prevWorker with
   | some p => [.cancelPrev p, .waitPrev p]
   | none => []) ++ [.startWorker newId]

/-! ## Auxiliary notions used by the verification -/

/-- `';'.join(...)` over the splitter's output. -/
def joinSemi (l : List (List Char)) : List Char :=
  List.intercalate [';'] l

/-- `noDD t = true` when no two adjacent characters of `t` are both `-`
(so no `--` line comment can start anywhere in `t`). -/
def noDD : List Char → Bool
  | [] => true
  | [_] => true
  | a :: b :: rest => !(a = '-' && b = '-') && noDD (b :: rest)

/-- End-of-line treatment of the statement buffer: a nonempty buffer
receives a `'\n'` (app.py:4685-4686). -/
def nlStep (st : SplitState) : SplitState :=
  if st.current = [] then st else { st with current := st.current ++ ['\n'] }

/-- A whole-text version of the splitter's scanner, processing `'\n'`
directly instead of via `split('\n')`.  It has no comment branch, so it
agrees with the per-line scanner exactly on texts without `--`
(see `lineScan_eq_flatScan`). -/
def flatScan (st : SplitState) (prev : Option Char) : List Char → SplitState
  | [] => st
  | c :: rest =>
    if c = '\n' then
      flatScan (nlStep st) none rest
    else
      let st1 := quoteStep st prev c
      if c = ';' ∧ st1.in_string = false ∧ st1.in_comment = false then
        flatScan
          { st1 with
            statements := emitStmt st1.statements (st1.current ++ [c]),
            current := [] } (some c) rest
      else
        flatScan { st1 with current := st1.current ++ [c] } (some c) rest

/-- The previous-character tracker after consuming a chunk of text:
`none` right after a newline, otherwise the last character consumed. -/
def prevAfter (p : Option Char) : List Char → Option Char
  | [] => p
  | c :: rest => prevAfter (if c = '\n' then none else some c) rest

/-- The string-literal automaton of the scanner, on the
`(in_string, string_char)` pair alone. -/
def qStep (bsc : Bool × Option Char) (prev : Option Char) (c : Char) :
    Bool × Option Char :=
  if c = '"' ∨ c = '\'' then
    if bsc.1 = false then (true, some c)
    else if some c = bsc.2 then
      if prev = some '\\' then bsc else (false, none)
    else bsc
  else bsc

/-- Run of the string-literal automaton over a text. -/
def qState (bsc : Bool × Option Char) (prev : Option Char) :
    List Char → Bool × Option Char
  | [] => bsc
  | c :: rest =>
    if c = '\n' then qState bsc none rest
    else qState (qStep bsc prev c) (some c) rest

/-- `noBareSemi bsc prev t = true` when scanning `t` from string state
`bsc` meets no semicolon outside a string literal — i.e. no statement
terminator fires inside `t`. -/
def noBareSemi (bsc : Bool × Option Char) (prev : Option Char) :
    List Char → Bool
  | [] => true
  | c :: rest =>
    if c = '\n' then noBareSemi bsc none rest
    else
      let b1 := qStep bsc prev c
      if c = ';' ∧ b1.1 = false then false
      else noBareSemi b1 (some c) rest

/-- A well-formed output statement of the splitter: nonempty, fully
stripped, not ending in `;`, free of statement terminators and of `--`,
and leaving the string automaton closed.  Statements with these
properties round-trip through `';'.join` unchanged. -/
def goodStmt (s : List Char) : Prop :=
  s ≠ [] ∧ pyStrip s = s ∧ s.getLast? ≠ some ';'
  ∧ noBareSemi (false, none) none s = true
  ∧ qState (false, none) none s = (false, none)
  ∧ noDD s = true

/-- Every character is Python whitespace. -/
def allWs (w : List Char) : Prop :=
  ∀ c ∈ w, isPySpace c = true

/-- Prepend the remembered previous character, if any, to a text; used
to carry `--`-freedom through the scan. -/
def consOpt (p : Option Char) (t : List Char) : List Char :=
  match p with
  | some c => c :: t
  | none => t

/-- Invariant of the flat scanner along a run from the initial state:
all statements produced so far are well formed, the current buffer is
terminator-free, its string-automaton state matches the scanner's, it
does not start with a newline, it is `--`-free, and the `prev` argument
is consistent with the buffer. -/
def ScanInv (st : SplitState) (p : Option Char) : Prop :=
  (∀ s ∈ st.statements, goodStmt s)
  ∧ noBareSemi (false, none) none st.current = true
  ∧ qState (false, none) none st.current = (st.in_string, st.string_char)
  ∧ st.in_comment = false
  ∧ st.current.head? ≠ some '\n'
  ∧ noDD st.current = true
  ∧ (st.current ≠ [] → prevAfter none st.current = p)
  ∧ (st.current = [] → p ≠ some '\\')

/-- The event list carried by a fetch-loop result. -/
def FetchRes.evs : FetchRes → List Event
  | .finished _ e _ => e
  | .cancelled _ e => e
  | .raised _ e _ => e

/-- Every event in `l` is a progress event. -/
def progressOnly (l : List Event) : Prop :=
  ∀ ev ∈ l, ∃ n, ev = Event.progress n

/-- Is this a batch-ready event? -/
def isBatchEvent : Event → Bool
  | .batchReady _ _ _ _ => true
  | _ => false

/-- Is this an error event? -/
def isErrorEvent : Event → Bool
  | .errorOccurred _ => true
  | _ => false

/-! ## Claim C2: the pagination rewriter -/

/-- C2: for every statement, page size and offset, the rewriter of
`StreamingQueryThread.run` produces exactly the statement described by
the specification: with an existing `LIMIT <integer>` clause the
semicolon-stripped original is wrapped as a subquery carrying a fresh
`LIMIT N OFFSET O`; without one, ` LIMIT N OFFSET O` is appended directly
to the semicolon-stripped original, which is otherwise unmodified. -/
theorem rewriter_matches_spec (q : List Char) (n o : Nat) :
    paginatedQueryOf q n o = specPaginate q n o := by
  unfold paginatedQueryOf specPaginate
  have hx : (") AS subquery LIMIT ").data
      = (") AS subquery").data ++ (" LIMIT ").data := by decide
  split
  · rw [hx]; simp [cleanQueryOf, List.append_assoc]
  · simp [cleanQueryOf, List.append_assoc]

/-! ## Claim C7: word-boundary behaviour of the LIMIT detection -/

theorem limitScan_eq_false_of_harmless (p : Bool) (l : List Char)
    (h : limitOccHarmless p l = true) : limitScan p l = false := by
  induction l generalizing p with
  | nil => rfl
  | cons c rest ih =>
    simp only [limitOccHarmless, Bool.and_eq_true] at h
    obtain ⟨h1, h2⟩ := h
    simp only [limitScan, ih _ h2, Bool.or_false, limitPatternHere]
    cases hp : p with
    | true => simp
    | false =>
      subst hp
      simp only [Bool.not_false, Bool.true_and, Bool.and_eq_false_iff]
      simp only [Bool.or_eq_true, Bool.not_eq_true', decide_eq_true_eq,
        Bool.not_eq_eq_eq_not, Bool.not_true, Bool.or_false] at h1
      rcases h1 with h1 | h1
      · left; simpa using h1
      · right; simpa using h1

/-- C7 (amended): the LIMIT detection is a word-boundary-aware,
case-insensitive textual match for `LIMIT <integer>`; whenever every
occurrence of `limit` in the (stripped, uppercased) statement is part of
a longer identifier or is not followed by whitespace and an integer, the
rewriter takes the append branch.  (The match is purely textual and does
not respect string literals: see the counterexample.) -/
theorem limit_detection_word_boundary (q : List Char) (n o : Nat)
    (h : limitOccHarmless false (queryUpperOf q) = true) :
    paginatedQueryOf q n o =
      cleanQueryOf q ++ (" LIMIT ").data ++ natChars n
        ++ (" OFFSET ").data ++ natChars o := by
  have hfalse : hasLimitClause (queryUpperOf q) = false :=
    limitScan_eq_false_of_harmless false _ h
  unfold paginatedQueryOf
  rw [hfalse]
  simp [cleanQueryOf]

theorem limit_detection_word_boundary_witness :
    limitOccHarmless false (queryUpperOf ("SELECT * FROM unlimited_5").data) = true
    ∧ paginatedQueryOf ("SELECT * FROM unlimited_5").data 10 20
      = cleanQueryOf ("SELECT * FROM unlimited_5").data ++ (" LIMIT ").data
        ++ natChars 10 ++ (" OFFSET ").data ++ natChars 20 :=
  ⟨by decide, limit_detection_word_boundary _ 10 20 (by decide)⟩

/-- C7 (counterexample): a statement whose only occurrence of `limit`
lies inside a quoted string literal — `'limit 5'` — is nevertheless
detected as having a LIMIT clause, so the rewriter takes the wrap
branch, not the append branch claimed. -/
theorem limit_detection_counterexample :
    hasLimitClause
        (queryUpperOf ("SELECT * FROM t WHERE note = 'limit 5'").data) = true
    ∧ paginatedQueryOf ("SELECT * FROM t WHERE note = 'limit 5'").data 10 0
      = ("SELECT * FROM (SELECT * FROM t WHERE note = 'limit 5') AS subquery LIMIT 10 OFFSET 0").data :=
  ⟨by decide, by decide⟩

/-! ## Fetch-loop lemmas -/

theorem progressOnly_nil : progressOnly [] := by
  intro ev h
  cases h

theorem progressOnly_append_progress (l : List Event) (n : Nat)
    (h : progressOnly l) : progressOnly (l ++ [.progress n]) := by
  intro ev hev
  rcases List.mem_append.mp hev with hl | hr
  · exact h ev hl
  · exact ⟨n, List.mem_singleton.mp hr⟩

theorem fetchLoopAux_progressOnly (cf failAt : Option Nat) (failMsg : List Char)
    (batchSize : Nat) (fuel : Nat) :
    ∀ (chunkIdx k rowCount : Nat) (acc : List (List Cell)) (evs : List Event)
      (remaining : List (List Cell)), progressOnly evs →
      progressOnly (fetchLoopAux cf failAt failMsg batchSize fuel chunkIdx k
        rowCount acc evs remaining).evs := by
  induction fuel with
  | zero =>
    intro chunkIdx k rowCount acc evs remaining hp
    simpa [fetchLoopAux, FetchRes.evs] using hp
  | succ fuel ih =>
    intro chunkIdx k rowCount acc evs remaining hp
    rw [fetchLoopAux]
    by_cases h1 : batchSize ≤ rowCount
    · simpa [h1, FetchRes.evs] using hp
    · by_cases h2 : failAt = some chunkIdx
      · simpa [h1, h2, FetchRes.evs] using hp
      · by_cases h3 : List.take 1000 remaining = ([] : List (List Cell))
        · simpa [h1, h2, h3, FetchRes.evs] using hp
        · by_cases h4 : cancelObserved cf k = true
          · simpa [h1, h2, h3, h4, FetchRes.evs] using hp
          · simpa [h1, h2, h3, h4] using
              ih _ _ _ _ _ _ (progressOnly_append_progress _ _ hp)

theorem fetchLoop_progressOnly (cf failAt : Option Nat) (failMsg : List Char)
    (batchSize chunkIdx k rowCount : Nat) (acc : List (List Cell))
    (evs : List Event) (remaining : List (List Cell)) (hp : progressOnly evs) :
    progressOnly (fetchLoop cf failAt failMsg batchSize chunkIdx k rowCount acc
      evs remaining).evs :=
  fetchLoopAux_progressOnly cf failAt failMsg batchSize _ _ _ _ _ _ _ hp

theorem fetchLoopAux_none_ne_cancelled (failAt : Option Nat) (failMsg : List Char)
    (batchSize fuel : Nat) :
    ∀ (chunkIdx k rowCount : Nat) (acc : List (List Cell)) (evs : List Event)
      (remaining : List (List Cell)) (k' : Nat) (evs' : List Event),
      fetchLoopAux none failAt failMsg batchSize fuel chunkIdx k rowCount acc evs
        remaining ≠ .cancelled k' evs' := by
  induction fuel with
  | zero =>
    intro chunkIdx k rowCount acc evs remaining k' evs'
    simp [fetchLoopAux]
  | succ fuel ih =>
    intro chunkIdx k rowCount acc evs remaining k' evs'
    rw [fetchLoopAux]
    by_cases h1 : batchSize ≤ rowCount
    · simp [h1]
    · by_cases h2 : failAt = some chunkIdx
      · simp [h1, h2]
      · by_cases h3 : List.take 1000 remaining = ([] : List (List Cell))
        · simp [h1, h2, h3]
        · simpa [h1, h2, h3, cancelObserved] using ih _ _ _ _ _ _ _ _

theorem fetchLoop_none_ne_cancelled (failAt : Option Nat) (failMsg : List Char)
    (batchSize chunkIdx k rowCount : Nat) (acc : List (List Cell))
    (evs : List Event) (remaining : List (List Cell)) (k' : Nat)
    (evs' : List Event) :
    fetchLoop none failAt failMsg batchSize chunkIdx k rowCount acc evs remaining
      ≠ .cancelled k' evs' :=
  fetchLoopAux_none_ne_cancelled failAt failMsg batchSize _ _ _ _ _ _ _ _ _

theorem not_mem_batch_of_progressOnly {l : List Event} (h : progressOnly l)
    (c : List (List Char)) (r : List (List Cell)) (t : Int) (hm : Bool) :
    Event.batchReady c r t hm ∉ l := by
  intro hmem
  obtain ⟨n, hn⟩ := h _ hmem
  simp at hn

theorem not_mem_error_of_progressOnly {l : List Event} (h : progressOnly l)
    (m : List Char) : Event.errorOccurred m ∉ l := by
  intro hmem
  obtain ⟨n, hn⟩ := h _ hmem
  simp at hn

/-! ## Characterisation of emitted batches -/

theorem select_batch_mem (e : Engine) (q : List Char) (N O : Nat)
    (cf : Option Nat) (c : List (List Char)) (r : List (List Cell)) (t : Int)
    (hm : Bool) (hsel : isSelectQuery q = true)
    (hmem : Event.batchReady c r t hm ∈ (runStreaming e q N O cf).events) :
    t = countTotalOf e ∧
    hm = (decide (r.length = N) && (decide (t = -1)
          || decide ((O : Int) + (N : Int) < t))) := by
  rw [runStreaming] at hmem
  simp only [hsel, if_true] at hmem
  by_cases h0 : cancelObserved cf 0 = true
  · simp [h0] at hmem
  · by_cases h1 : cancelObserved cf 1 = true
    · simp [h0, h1] at hmem
    · rcases hme : e.mainExec with msg | cur
      · by_cases h2 : cancelObserved cf 2 = true <;>
          simp [h0, h1, hme, h2] at hmem
      · rcases hdesc : cur.description with _ | columns
        · by_cases h2 : cancelObserved cf 2 = true <;>
            simp [h0, h1, hme, hdesc, h2] at hmem
        · by_cases h2 : cancelObserved cf 2 = true
          · simp [h0, h1, hme, hdesc, h2] at hmem
          · rcases hfl : fetchLoop cf cur.fetchmanyFailAt cur.fetchmanyErrMsg N 0 3 0
                [] [] cur.rows with ⟨k, levs, batch⟩ | ⟨k, levs⟩ | ⟨k, levs, msg⟩
            · by_cases hk : cancelObserved cf k = true
              · have hpo : progressOnly levs := by
                  have := fetchLoop_progressOnly cf cur.fetchmanyFailAt
                    cur.fetchmanyErrMsg N 0 3 0 [] [] cur.rows progressOnly_nil
                  rw [hfl] at this
                  exact this
                simp [h0, h1, hme, hdesc, h2, hfl, hk] at hmem
                exact absurd hmem (not_mem_batch_of_progressOnly hpo _ _ _ _)
              · have hpo : progressOnly levs := by
                  have := fetchLoop_progressOnly cf cur.fetchmanyFailAt
                    cur.fetchmanyErrMsg N 0 3 0 [] [] cur.rows progressOnly_nil
                  rw [hfl] at this
                  exact this
                simp [h0, h1, hme, hdesc, h2, hfl, hk] at hmem
                rcases hmem with hmem | ⟨hc, hr, ht, hhm⟩
                · exact absurd hmem (not_mem_batch_of_progressOnly hpo _ _ _ _)
                · subst ht
                  refine ⟨rfl, ?_⟩
                  rw [hhm, hr]
            · have hpo : progressOnly levs := by
                have := fetchLoop_progressOnly cf cur.fetchmanyFailAt
                  cur.fetchmanyErrMsg N 0 3 0 [] [] cur.rows progressOnly_nil
                rw [hfl] at this
                exact this
              simp [h0, h1, hme, hdesc, h2, hfl] at hmem
              exact absurd hmem (not_mem_batch_of_progressOnly hpo _ _ _ _)
            · have hpo : progressOnly levs := by
                have := fetchLoop_progressOnly cf cur.fetchmanyFailAt
                  cur.fetchmanyErrMsg N 0 3 0 [] [] cur.rows progressOnly_nil
                rw [hfl] at this
                exact this
              by_cases hk : cancelObserved cf k = true <;>
                simp [h0, h1, hme, hdesc, h2, hfl, hk] at hmem <;>
                exact absurd hmem (not_mem_batch_of_progressOnly hpo _ _ _ _)

/-! ## Claim C1: the `hasMore` formula -/

/-- C1: for every row-producing (SELECT) statement run by the streaming
worker with page size `N` and offset `O`, any emitted batch has
`hasMore = (rows in the batch = N) AND (totalCount = -1 OR O + N < totalCount)`.
With a known total this makes a page of exactly `N` rows on an `N`-row
result report `hasMore = false`, and an `(N+1)`-row result report
`hasMore = true` on page 0 and `false` on page 1 (see the witness). -/
theorem hasMore_formula (e : Engine) (q : List Char) (N O : Nat)
    (cf : Option Nat) (c : List (List Char)) (r : List (List Cell)) (t : Int)
    (hm : Bool) (hsel : isSelectQuery q = true)
    (hmem : Event.batchReady c r t hm ∈ (runStreaming e q N O cf).events) :
    hm = (decide (r.length = N)
          && (decide (t = -1) || decide ((O : Int) + (N : Int) < t))) :=
  (select_batch_mem e q N O cf c r t hm hsel hmem).2

/-- Witness for `hasMore_formula`: a 3-row result paged with page size 2
at offset 0 (the `pageSize + 1` scenario, first page) emits a batch with
`hasMore = true`, as the formula dictates. -/
theorem hasMore_formula_witness :
    isSelectQuery ("SELECT * FROM t").data = true ∧
    Event.batchReady [("c").data] [[Cell.vInt 1], [Cell.vInt 2]] 3 true
      ∈ (runStreaming
          ⟨.ok (some 3),
           .ok ⟨some [("c").data], [[Cell.vInt 1], [Cell.vInt 2]], none, [], false⟩⟩
          ("SELECT * FROM t").data 2 0 none).events ∧
    true = (decide (([[Cell.vInt 1], [Cell.vInt 2]] : List (List Cell)).length = 2)
          && (decide ((3 : Int) = -1) || decide ((0 : Int) + (2 : Int) < 3))) :=
  ⟨by decide, by decide,
   hasMore_formula
     ⟨.ok (some 3),
      .ok ⟨some [("c").data], [[Cell.vInt 1], [Cell.vInt 2]], none, [], false⟩⟩
     ("SELECT * FROM t").data 2 0 none [("c").data] [[Cell.vInt 1], [Cell.vInt 2]]
     3 true (by decide) (by decide)⟩

/-! ## Claim C9: non-row-producing statements -/

/-- C9: for every statement not classified as SELECT, any emitted batch
has `hasMore = false`; when the executed statement yields no fetchable
rows (an empty or failing `fetchall`) the batch is the synthetic
single-row acknowledgment, and when the cursor exposes no column
metadata the synthetic `Result` column is used. -/
theorem nonselect_batch (e : Engine) (q : List Char) (N O : Nat)
    (cf : Option Nat) (c : List (List Char)) (r : List (List Cell)) (t : Int)
    (hm : Bool) (hsel : isSelectQuery q = false)
    (hmem : Event.batchReady c r t hm ∈ (runStreaming e q N O cf).events) :
    hm = false ∧ t = 1 ∧
    ∀ cur, e.mainExec = .ok cur →
      ((cur.fetchallFails = true ∨ cur.rows = []) →
        r = [[Cell.vStr ("Query executed successfully").data]]) ∧
      ((cur.description = none ∨ cur.description = some []) →
        c = [("Result").data]) := by
  rw [runStreaming] at hmem
  simp only [hsel, Bool.false_eq_true, if_false] at hmem
  by_cases h0 : cancelObserved cf 0 = true
  · simp [h0] at hmem
  · rcases hme : e.mainExec with msg | cur
    · by_cases h1 : cancelObserved cf 1 = true <;> simp [h0, hme, h1] at hmem
    · by_cases h1 : cancelObserved cf 1 = true
      · simp [h0, hme, h1] at hmem
      · by_cases h2 : cancelObserved cf 2 = true
        · simp [h0, hme, h1, h2] at hmem
        · simp [h0, hme, h1, h2] at hmem
          obtain ⟨hc, hr, ht, hhm⟩ := hmem
          subst ht
          refine ⟨hhm.symm ▸ rfl, rfl, ?_⟩
          intro cur' hcur'
          injection hcur' with hcc
          subst hcc
          constructor
          · intro hsyn
            rw [hr]
            rcases hsyn with hsyn | hsyn
            · simp [nonSelectFetch, hsyn]
            · cases hf : cur.fetchallFails <;> simp [nonSelectFetch, hsyn, hf]
          · intro hdesc
            rw [hc]
            rcases hdesc with hdesc | hdesc <;> simp [hdesc]

/-- Witness for `nonselect_batch`: a DDL statement with no column
metadata and no fetchable rows yields the synthetic acknowledgment
batch under the synthetic `Result` column, with `hasMore = false`. -/
theorem nonselect_batch_witness :
    isSelectQuery ("CREATE TABLE t (x INT)").data = false ∧
    Event.batchReady [("Result").data]
        [[Cell.vStr ("Query executed successfully").data]] 1 false
      ∈ (runStreaming ⟨.ok none, .ok ⟨none, [], none, [], false⟩⟩
          ("CREATE TABLE t (x INT)").data 10 0 none).events ∧
    (false = false ∧ (1 : Int) = 1 ∧
      ∀ cur, (⟨.ok none, .ok ⟨none, [], none, [], false⟩⟩ : Engine).mainExec
          = .ok cur →
        ((cur.fetchallFails = true ∨ cur.rows = []) →
          [[Cell.vStr ("Query executed successfully").data]]
            = [[Cell.vStr ("Query executed successfully").data]]) ∧
        ((cur.description = none ∨ cur.description = some []) →
          [("Result").data] = [("Result").data])) :=
  ⟨by decide, by decide,
   nonselect_batch ⟨.ok none, .ok ⟨none, [], none, [], false⟩⟩
     ("CREATE TABLE t (x INT)").data 10 0 none _ _ _ _ (by decide) (by decide)⟩

/-! ## Claim C4: at most one terminal event per invocation -/

theorem countP_batch_eq_zero {l : List Event} (h : progressOnly l) :
    l.countP isBatchEvent = 0 :=
  List.countP_eq_zero.mpr (fun a ha => by
    obtain ⟨n, hn⟩ := h a ha
    subst hn
    simp [isBatchEvent])

theorem countP_error_eq_zero {l : List Event} (h : progressOnly l) :
    l.countP isErrorEvent = 0 :=
  List.countP_eq_zero.mpr (fun a ha => by
    obtain ⟨n, hn⟩ := h a ha
    subst hn
    simp [isErrorEvent])

/-- C4: every single worker invocation emits at most one batch-ready and
at most one error event and never both; with no cancellation requested it
emits exactly one of the two; and whenever an error event is emitted
(in particular on a mid-fetch failure after a successful execute), no
batch is emitted, so partially fetched rows are discarded. -/
theorem single_terminal_event (e : Engine) (q : List Char) (N O : Nat)
    (cf : Option Nat) :
    ((runStreaming e q N O cf).events.countP isBatchEvent
      + (runStreaming e q N O cf).events.countP isErrorEvent ≤ 1)
    ∧ (cf = none →
        (runStreaming e q N O cf).events.countP isBatchEvent
          + (runStreaming e q N O cf).events.countP isErrorEvent = 1)
    ∧ (∀ m, Event.errorOccurred m ∈ (runStreaming e q N O cf).events →
        ∀ c r t hm,
          Event.batchReady c r t hm ∉ (runStreaming e q N O cf).events) := by
  have main :
      ((runStreaming e q N O cf).events.countP isBatchEvent
        + (runStreaming e q N O cf).events.countP isErrorEvent ≤ 1)
      ∧ (cf = none →
          (runStreaming e q N O cf).events.countP isBatchEvent
            + (runStreaming e q N O cf).events.countP isErrorEvent = 1) := by
    rw [runStreaming]
    by_cases hsel : isSelectQuery q = true
    · simp only [hsel, if_true]
      by_cases h0 : cancelObserved cf 0 = true
      · refine ⟨by simp [h0, isBatchEvent, isErrorEvent], ?_⟩
        intro hcf
        subst hcf
        simp [cancelObserved] at h0
      · by_cases h1 : cancelObserved cf 1 = true
        · refine ⟨by simp [h0, h1, isBatchEvent, isErrorEvent], ?_⟩
          intro hcf
          subst hcf
          simp [cancelObserved] at h1
        · rcases hme : e.mainExec with msg | cur
          · by_cases h2 : cancelObserved cf 2 = true
            · refine ⟨by simp [hme, h0, h1, h2, isBatchEvent, isErrorEvent], ?_⟩
              intro hcf
              subst hcf
              simp [cancelObserved] at h2
            · exact ⟨by simp [hme, h0, h1, h2, isBatchEvent, isErrorEvent],
                fun _ => by simp [hme, h0, h1, h2, isBatchEvent, isErrorEvent]⟩
          · rcases hdesc : cur.description with _ | columns
            · by_cases h2 : cancelObserved cf 2 = true
              · refine ⟨by simp [hme, hdesc, h0, h1, h2, isBatchEvent, isErrorEvent], ?_⟩
                intro hcf
                subst hcf
                simp [cancelObserved] at h2
              · exact ⟨by simp [hme, hdesc, h0, h1, h2, isBatchEvent, isErrorEvent],
                  fun _ => by simp [hme, hdesc, h0, h1, h2, isBatchEvent, isErrorEvent]⟩
            · by_cases h2 : cancelObserved cf 2 = true
              · refine ⟨by simp [hme, hdesc, h0, h1, h2, isBatchEvent, isErrorEvent], ?_⟩
                intro hcf
                subst hcf
                simp [cancelObserved] at h2
              · rcases hfl : fetchLoop cf cur.fetchmanyFailAt cur.fetchmanyErrMsg N
                    0 3 0 [] [] cur.rows with ⟨k, levs, batch⟩ | ⟨k, levs⟩ |
                    ⟨k, levs, msg⟩ <;>
                  have hpo : progressOnly levs := by
                    have := fetchLoop_progressOnly cf cur.fetchmanyFailAt
                      cur.fetchmanyErrMsg N 0 3 0 [] [] cur.rows progressOnly_nil
                    rw [hfl] at this
                    exact this
                · by_cases hk : cancelObserved cf k = true
                  · refine ⟨by simp [hme, hdesc, h0, h1, h2, hk, hfl, List.countP_append,
                      countP_batch_eq_zero hpo, countP_error_eq_zero hpo,
                      isBatchEvent, isErrorEvent], ?_⟩
                    intro hcf
                    subst hcf
                    simp [cancelObserved] at hk
                  · exact ⟨by simp [hme, hdesc, h0, h1, h2, hk, hfl, List.countP_append,
                      countP_batch_eq_zero hpo, countP_error_eq_zero hpo,
                      isBatchEvent, isErrorEvent],
                      fun _ => by simp [hme, hdesc, h0, h1, h2, hk, hfl, List.countP_append,
                        countP_batch_eq_zero hpo, countP_error_eq_zero hpo,
                        isBatchEvent, isErrorEvent]⟩
                · refine ⟨by simp [hme, hdesc, h0, h1, h2, hfl, List.countP_append,
                    countP_batch_eq_zero hpo, countP_error_eq_zero hpo,
                    isBatchEvent, isErrorEvent], ?_⟩
                  intro hcf
                  subst hcf
                  exact absurd hfl (fetchLoop_none_ne_cancelled _ _ _ _ _ _ _ _ _ _ _)
                · by_cases hk : cancelObserved cf k = true
                  · refine ⟨by simp [hme, hdesc, h0, h1, h2, hk, hfl, List.countP_append,
                      countP_batch_eq_zero hpo, countP_error_eq_zero hpo,
                      isBatchEvent, isErrorEvent], ?_⟩
                    intro hcf
                    subst hcf
                    simp [cancelObserved] at hk
                  · exact ⟨by simp [hme, hdesc, h0, h1, h2, hk, hfl, List.countP_append,
                      countP_batch_eq_zero hpo, countP_error_eq_zero hpo,
                      isBatchEvent, isErrorEvent],
                      fun _ => by simp [hme, hdesc, h0, h1, h2, hk, hfl, List.countP_append,
                        countP_batch_eq_zero hpo, countP_error_eq_zero hpo,
                        isBatchEvent, isErrorEvent]⟩
    · simp only [hsel]
      by_cases h0 : cancelObserved cf 0 = true
      · refine ⟨by simp [h0, isBatchEvent, isErrorEvent], ?_⟩
        intro hcf
        subst hcf
        simp [cancelObserved] at h0
      · rcases hme : e.mainExec with msg | cur
        · by_cases h1 : cancelObserved cf 1 = true
          · refine ⟨by simp [h0, h1, isBatchEvent, isErrorEvent], ?_⟩
            intro hcf
            subst hcf
            simp [cancelObserved] at h1
          · exact ⟨by simp [h0, h1, isBatchEvent, isErrorEvent],
              fun _ => by simp [h0, h1, isBatchEvent, isErrorEvent]⟩
        · by_cases h1 : cancelObserved cf 1 = true
          · refine ⟨by simp [h0, h1, isBatchEvent, isErrorEvent], ?_⟩
            intro hcf
            subst hcf
            simp [cancelObserved] at h1
          · by_cases h2 : cancelObserved cf 2 = true
            · refine ⟨by simp [hme, h0, h1, h2, isBatchEvent, isErrorEvent], ?_⟩
              intro hcf
              subst hcf
              simp [cancelObserved] at h2
            · exact ⟨by simp [hme, h0, h1, h2, isBatchEvent, isErrorEvent],
                fun _ => by simp [hme, h0, h1, h2, isBatchEvent, isErrorEvent]⟩
  refine ⟨main.1, main.2, ?_⟩
  intro m hmE c r t hm hmB
  have hb : 0 < (runStreaming e q N O cf).events.countP isBatchEvent :=
    List.countP_pos_iff.mpr ⟨_, hmB, by simp [isBatchEvent]⟩
  have he : 0 < (runStreaming e q N O cf).events.countP isErrorEvent :=
    List.countP_pos_iff.mpr ⟨_, hmE, by simp [isErrorEvent]⟩
  have := main.1
  omega

/-- Witness for `single_terminal_event`: an uncancelled successful run
emits exactly one terminal event. -/
theorem single_terminal_event_witness :
    (runStreaming
        ⟨.ok (some 3),
         .ok ⟨some [("c").data], [[Cell.vInt 1], [Cell.vInt 2]], none, [], false⟩⟩
        ("SELECT * FROM t").data 2 0 none).events.countP isBatchEvent
      + (runStreaming
          ⟨.ok (some 3),
           .ok ⟨some [("c").data], [[Cell.vInt 1], [Cell.vInt 2]], none, [], false⟩⟩
          ("SELECT * FROM t").data 2 0 none).events.countP isErrorEvent = 1 :=
  (single_terminal_event
    ⟨.ok (some 3),
     .ok ⟨some [("c").data], [[Cell.vInt 1], [Cell.vInt 2]], none, [], false⟩⟩
    ("SELECT * FROM t").data 2 0 none).2.1 rfl

/-! ## Claim C5: count failure degrades to an unknown total -/

/-- C5: when the COUNT(*) wrapper fails, the worker behaves exactly as if
the count had produced the sentinel `-1` (total unknown): the whole run
is unchanged — so a count failure never aborts the page fetch and never
surfaces an error event of its own — and when not cancelled the paginated
statement is still submitted to the engine after the count attempt. -/
theorem count_failure_degrades (e : Engine) (q : List Char) (N O : Nat)
    (cf : Option Nat) (m : List Char)
    (hsel : isSelectQuery q = true) (hcnt : e.countExec = .error m) :
    runStreaming e q N O cf
      = runStreaming ⟨Except.ok (some (-1)), e.mainExec⟩ q N O cf
    ∧ (cf = none → (runStreaming e q N O cf).calls
        = [countQueryOf q, paginatedQueryOf q N O]) := by
  constructor
  · rcases e with ⟨ce, me⟩
    simp only at hcnt
    subst hcnt
    rw [runStreaming, runStreaming]
    simp only [hsel, if_true, countTotalOf]
  · intro hcf
    subst hcf
    rw [runStreaming]
    simp only [hsel, if_true, cancelObserved]
    rcases e.mainExec with msg | cur
    · simp
    · rcases hdesc : cur.description with _ | cols
      · simp [hdesc]
      · rcases hfl : fetchLoop none cur.fetchmanyFailAt cur.fetchmanyErrMsg N 0 3 0
            [] [] cur.rows with ⟨k, levs, b⟩ | ⟨k, levs⟩ | ⟨k, levs, m'⟩ <;>
          simp [hdesc, hfl]

/-- Witness for `count_failure_degrades` at a concrete failing count. -/
theorem count_failure_degrades_witness :
    (runStreaming
        ⟨.error ("not valid in subquery").data,
         .ok ⟨some [("x").data], [[Cell.vInt 7]], none, [], false⟩⟩
        ("SELECT * FROM big").data 10 0 none
      = runStreaming
          ⟨Except.ok (some (-1)),
           .ok ⟨some [("x").data], [[Cell.vInt 7]], none, [], false⟩⟩
          ("SELECT * FROM big").data 10 0 none)
    ∧ (runStreaming
        ⟨.error ("not valid in subquery").data,
         .ok ⟨some [("x").data], [[Cell.vInt 7]], none, [], false⟩⟩
        ("SELECT * FROM big").data 10 0 none).calls
      = [countQueryOf ("SELECT * FROM big").data,
         paginatedQueryOf ("SELECT * FROM big").data 10 0] := by
  have h := count_failure_degrades
    ⟨.error ("not valid in subquery").data,
     .ok ⟨some [("x").data], [[Cell.vInt 7]], none, [], false⟩⟩
    ("SELECT * FROM big").data 10 0 none ("not valid in subquery").data
    (by decide) rfl
  exact ⟨h.1, h.2 rfl⟩

/-! ## Claim C3: observed cancellation silences the worker -/

theorem progressOnly_cons (m : Nat) (l : List Event) (h : progressOnly l) :
    progressOnly (Event.progress m :: l) := by
  intro ev hev
  rcases List.mem_cons.mp hev with hev | hev
  · exact ⟨m, hev⟩
  · exact h _ hev

/-- C3 (amended): if the worker observes its cancellation flag set — that
is, the flag becomes true before one of the reads the run performs (after
the count step, before execute, at each chunk boundary, before emission,
and in the exception handler) — then the invocation emits only progress
events: no batch-ready and no error event, and an engine exception after
observed cancellation is suppressed.  Moreover the submit path of the
session always cancels and joins an existing worker and then starts the
new one, so the session accepts a new submit after the worker is
awaited. -/
theorem cancellation_silences_worker (e : Engine) (q : List Char) (N O n : Nat)
    (hobs : n < (runStreaming e q N O (some n)).reads) :
    (∀ c r t hm,
        Event.batchReady c r t hm ∉ (runStreaming e q N O (some n)).events)
    ∧ (∀ m, Event.errorOccurred m ∉ (runStreaming e q N O (some n)).events)
    ∧ (∀ (prevWorker : Option Nat) (newId : Nat),
        (executeStreamingSubmit prevWorker newId).getLast?
            = some (SessionAct.startWorker newId)
        ∧ ∀ p, prevWorker = some p →
            executeStreamingSubmit prevWorker newId
              = [SessionAct.cancelPrev p, SessionAct.waitPrev p,
                 SessionAct.startWorker newId]) := by
  have hpo : progressOnly (runStreaming e q N O (some n)).events := by
    rw [runStreaming] at hobs ⊢
    by_cases hsel : isSelectQuery q = true
    · simp only [hsel, if_true] at hobs ⊢
      by_cases h0 : cancelObserved (some n) 0 = true
      · simp [h0]
        exact progressOnly_cons _ _ (progressOnly_cons _ _ progressOnly_nil)
      · by_cases h1 : cancelObserved (some n) 1 = true
        · simp [h0, h1]
          exact progressOnly_cons _ _ (progressOnly_cons _ _
            (progressOnly_cons _ _ progressOnly_nil))
        · rcases hme : e.mainExec with msg | cur
          · by_cases h2 : cancelObserved (some n) 2 = true
            · simp [hme, h0, h1, h2]
              exact progressOnly_cons _ _ (progressOnly_cons _ _
                (progressOnly_cons _ _ progressOnly_nil))
            · simp [hme, h0, h1, h2] at hobs
              simp [cancelObserved] at h2
              omega
          · rcases hdesc : cur.description with _ | columns
            · by_cases h2 : cancelObserved (some n) 2 = true
              · simp [hme, hdesc, h0, h1, h2]
                exact progressOnly_cons _ _ (progressOnly_cons _ _
                  (progressOnly_cons _ _ progressOnly_nil))
              · simp [hme, hdesc, h0, h1, h2] at hobs
                simp [cancelObserved] at h2
                omega
            · by_cases h2 : cancelObserved (some n) 2 = true
              · simp [hme, hdesc, h0, h1, h2]
                exact progressOnly_cons _ _ (progressOnly_cons _ _
                  (progressOnly_cons _ _ (progressOnly_cons _ _ progressOnly_nil)))
              · rcases hfl : fetchLoop (some n) cur.fetchmanyFailAt
                    cur.fetchmanyErrMsg N 0 3 0 [] [] cur.rows with
                    ⟨k, levs, batch⟩ | ⟨k, levs⟩ | ⟨k, levs, msg⟩ <;>
                  have hlev : progressOnly levs := by
                    have := fetchLoop_progressOnly (some n) cur.fetchmanyFailAt
                      cur.fetchmanyErrMsg N 0 3 0 [] [] cur.rows progressOnly_nil
                    rw [hfl] at this
                    exact this
                · by_cases hk : cancelObserved (some n) k = true
                  · simp [hme, hdesc, h0, h1, h2, hfl, hk]
                    exact progressOnly_cons _ _ (progressOnly_cons _ _
                      (progressOnly_cons _ _ (progressOnly_cons _ _ hlev)))
                  · simp [hme, hdesc, h0, h1, h2, hfl, hk] at hobs
                    simp [cancelObserved] at hk
                    omega
                · simp [hme, hdesc, h0, h1, h2, hfl]
                  exact progressOnly_cons _ _ (progressOnly_cons _ _
                    (progressOnly_cons _ _ (progressOnly_cons _ _ hlev)))
                · by_cases hk : cancelObserved (some n) k = true
                  · simp [hme, hdesc, h0, h1, h2, hfl, hk]
                    exact progressOnly_cons _ _ (progressOnly_cons _ _
                      (progressOnly_cons _ _ (progressOnly_cons _ _ hlev)))
                  · simp [hme, hdesc, h0, h1, h2, hfl, hk] at hobs
                    simp [cancelObserved] at hk
                    omega
    · simp only [hsel] at hobs ⊢
      by_cases h0 : cancelObserved (some n) 0 = true
      · simp [h0]
        exact progressOnly_cons _ _ (progressOnly_cons _ _ progressOnly_nil)
      · rcases hme : e.mainExec with msg | cur
        · by_cases h1 : cancelObserved (some n) 1 = true
          · simp [hme, h0, h1]
            exact progressOnly_cons _ _ (progressOnly_cons _ _ progressOnly_nil)
          · simp [hme, h0, h1] at hobs
            simp [cancelObserved] at h1
            omega
        · by_cases h1 : cancelObserved (some n) 1 = true
          · simp [hme, h0, h1]
            exact progressOnly_cons _ _ (progressOnly_cons _ _
              (progressOnly_cons _ _ progressOnly_nil))
          · by_cases h2 : cancelObserved (some n) 2 = true
            · simp [hme, h0, h1, h2]
              exact progressOnly_cons _ _ (progressOnly_cons _ _
                (progressOnly_cons _ _ progressOnly_nil))
            · simp [hme, h0, h1, h2] at hobs
              simp [cancelObserved] at h2
              omega
  refine ⟨fun c r t hm => not_mem_batch_of_progressOnly hpo c r t hm,
    fun m => not_mem_error_of_progressOnly hpo m, ?_⟩
  intro prevWorker newId
  rcases prevWorker with _ | p <;> simp [executeStreamingSubmit]

/-- Witness for `cancellation_silences_worker`: a worker cancelled before
its first flag read emits no batch and no error. -/
theorem cancellation_silences_worker_witness :
    0 < (runStreaming
        ⟨.ok (some 3),
         .ok ⟨some [("c").data], [[Cell.vInt 1], [Cell.vInt 2]], none, [], false⟩⟩
        ("SELECT * FROM t").data 2 0 (some 0)).reads ∧
    ((∀ c r t hm, Event.batchReady c r t hm
        ∉ (runStreaming
            ⟨.ok (some 3),
             .ok ⟨some [("c").data], [[Cell.vInt 1], [Cell.vInt 2]], none, [],
                  false⟩⟩
            ("SELECT * FROM t").data 2 0 (some 0)).events)
     ∧ (∀ m, Event.errorOccurred m
        ∉ (runStreaming
            ⟨.ok (some 3),
             .ok ⟨some [("c").data], [[Cell.vInt 1], [Cell.vInt 2]], none, [],
                  false⟩⟩
            ("SELECT * FROM t").data 2 0 (some 0)).events)
     ∧ (∀ (prevWorker : Option Nat) (newId : Nat),
        (executeStreamingSubmit prevWorker newId).getLast?
            = some (SessionAct.startWorker newId)
        ∧ ∀ p, prevWorker = some p →
            executeStreamingSubmit prevWorker newId
              = [SessionAct.cancelPrev p, SessionAct.waitPrev p,
                 SessionAct.startWorker newId])) :=
  ⟨by decide,
   cancellation_silences_worker
     ⟨.ok (some 3),
      .ok ⟨some [("c").data], [[Cell.vInt 1], [Cell.vInt 2]], none, [], false⟩⟩
     ("SELECT * FROM t").data 2 0 0 (by decide)⟩

/-- C3 (counterexample): the cancellation flag is not checked before the
count step.  With the flag set before the worker starts (observed already
at read index 0), the worker nevertheless submits the COUNT(*) wrapper to
the engine before noticing the cancellation; it then emits nothing
further.  Under the claimed check-before-count, a flag set before the
start would have prevented the count statement from being executed. -/
theorem no_check_before_count_counterexample :
    (runStreaming
        ⟨.ok (some 3),
         .ok ⟨some [("c").data], [[Cell.vInt 1], [Cell.vInt 2]], none, [], false⟩⟩
        ("SELECT * FROM t").data 2 0 (some 0)).calls
      = [countQueryOf ("SELECT * FROM t").data]
    ∧ (runStreaming
        ⟨.ok (some 3),
         .ok ⟨some [("c").data], [[Cell.vInt 1], [Cell.vInt 2]], none, [], false⟩⟩
        ("SELECT * FROM t").data 2 0 (some 0)).events
      = [Event.progress 0, Event.progress 25] := by
  exact ⟨by decide, by decide⟩

/-! ## Splitter helper lemmas -/

theorem dropTrailing_keep (p : Char → Bool) (s : List Char) (d : Char)
    (hd : p d = false) : dropTrailing p (s ++ [d]) = s ++ [d] := by
  unfold dropTrailing
  rw [List.reverse_append]
  simp [List.dropWhile_cons, hd]

theorem dropTrailing_drop (p : Char → Bool) (s : List Char) (x : Char)
    (hx : p x = true) : dropTrailing p (s ++ [x]) = dropTrailing p s := by
  unfold dropTrailing
  rw [List.reverse_append]
  simp [List.dropWhile_cons, hx]

theorem splitNl_eq_single (s : List Char) (h : '\n' ∉ s) : splitNl s = [s] := by
  induction s with
  | nil => rfl
  | cons c rest ih =>
    have hc : c ≠ '\n' := fun hc => h (hc ▸ List.mem_cons_self c rest)
    have hrest : '\n' ∉ rest := fun hr => h (List.mem_cons_of_mem c hr)
    rw [splitNl, if_neg hc, ih hrest]

/-! ## Claim C10: line comments are kept in the output -/

/-- C10 (counterexample): line-comment text is not preserved verbatim at
the end of a statement: the input `SELECT 1 -- x;` carries the comment
`-- x;`, but the returned statement ends in `-- x` — the statement-level
trailing-semicolon strip also eats the comment's final `;`. -/
theorem comment_semicolon_stripped_counterexample :
    split_sql_statements ("SELECT 1 -- x;").data = [("SELECT 1 -- x").data]
    ∧ ("SELECT 1 -- x").data ≠ ("SELECT 1 -- x;").data := by
  exact ⟨by decide, by decide⟩

/-- C10 (amended): the splitter keeps `--` line-comment text in the
statements it returns — a statement may end with trailing line-comment
text — except that the final statement trim also strips trailing
whitespace and semicolons from a comment at the very end of a statement.
For every comment body `c' ++ [d]` on the final line (no newline, last
character neither whitespace nor `;`), the comment is returned verbatim
inside the single statement. -/
theorem comment_preserved_in_output (c' : List Char) (d : Char)
    (hnl : '\n' ∉ c' ++ [d]) (hws : isPySpace d = false) (hsemi : d ≠ ';') :
    split_sql_statements (("SELECT 1 -- ").data ++ c' ++ [d])
      = [("SELECT 1 -- ").data ++ c' ++ [d]] := by
  have hdata : ("SELECT 1 -- ").data = 'S' :: ("ELECT 1 -- ").data := rfl
  have hnl' : '\n' ∉ ("SELECT 1 -- ").data ++ c' ++ [d] := by
    intro hmem
    rw [List.append_assoc] at hmem
    rcases List.mem_append.mp hmem with hmem | hmem
    · revert hmem; decide
    · exact hnl hmem
  have hstrip0 : ∀ t : List Char,
      List.dropWhile isPySpace (("SELECT 1 -- ").data ++ t)
        = ("SELECT 1 -- ").data ++ t := by
    intro t
    rw [hdata, List.cons_append, List.dropWhile_cons,
      if_neg (by decide), ← List.cons_append, ← hdata]
  have hcur : (("SELECT 1 -- ").data ++ c' ++ [d]) ≠ [] := by simp
  have hnotsemi : ("SELECT 1 -- ").data ++ c' ++ [d] ≠ [';'] := by
    intro heq
    have hlen := congrArg List.length heq
    simp at hlen
  have hstrip1 : pyStrip ((("SELECT 1 -- ").data ++ c' ++ [d]) ++ ['\n'])
      = ("SELECT 1 -- ").data ++ c' ++ [d] := by
    unfold pyStrip
    have h1 : (("SELECT 1 -- ").data ++ c' ++ [d]) ++ ['\n']
        = ("SELECT 1 -- ").data ++ (c' ++ [d] ++ ['\n']) := by
      simp [List.append_assoc]
    rw [h1, hstrip0, ← List.append_assoc, dropTrailing_drop _ _ _ (by decide),
      ← List.append_assoc, dropTrailing_keep _ _ _ hws]
  have hstrip2 : pyStrip (("SELECT 1 -- ").data ++ c' ++ [d])
      = ("SELECT 1 -- ").data ++ c' ++ [d] := by
    unfold pyStrip
    rw [List.append_assoc, hstrip0, ← List.append_assoc,
      dropTrailing_keep _ _ _ hws]
  have hsemi2 : pyRstripSemi (("SELECT 1 -- ").data ++ c' ++ [d])
      = ("SELECT 1 -- ").data ++ c' ++ [d] := by
    unfold pyRstripSemi
    exact dropTrailing_keep _ _ _ (by simp [hsemi])
  have hscan :
      processChars initSplitState none (("SELECT 1 -- ").data ++ c' ++ [d])
        = ⟨[], ("SELECT 1 -- ").data ++ c' ++ [d], false, none, false⟩ := by
    rw [List.append_assoc]
    simp [processChars, quoteStep, initSplitState]
  rw [split_sql_statements, splitNl_eq_single _ hnl']
  simp only [List.foldl, processLine, hscan]
  rw [if_pos (by simp)]
  simp only [emitStmt, hstrip1]
  rw [if_pos ⟨hcur, hnotsemi⟩]
  simp only [hsemi2, hstrip2]
  simp [hcur]

/-- Witness for `comment_preserved_in_output` at a concrete comment. -/
theorem comment_preserved_in_output_witness :
    split_sql_statements (("SELECT 1 -- ").data ++ [('x' : Char)] ++ ['!'])
      = [("SELECT 1 -- ").data ++ [('x' : Char)] ++ ['!']] :=
  comment_preserved_in_output ['x'] '!' (by decide) (by decide) (by decide)

/-! ## Claim C8: doubled quotes inside string literals -/

/-- C8 (counterexample): the splitter's quote handling is not a
doubled-quote escape rule — it checks the preceding character for a
backslash.  In `SELECT 'a\''`, the doubled quote occurs inside the
string literal (the scanner is in the in-string state when it reaches
the pair), yet the semicolon right after it terminates the statement:
the input splits into two statements. -/
theorem doubled_quote_counterexample :
    split_sql_statements ("SELECT 'a\\'';b'").data
      = [("SELECT 'a\\''").data, ("b'").data]
    ∧ (("SELECT 'a\\'';b'").data).length ≠ (("SELECT 'a\\''").data).length := by
  exact ⟨by decide, by decide⟩

/-- C8 (amended): when the scanner is inside a string opened with quote
character `q` and the previous character is not a backslash, a doubled
`q q` is consumed as content — the scanner momentarily leaves and
re-enters the in-string state, restoring it exactly — so a semicolon
immediately following the doubled quote inside the literal is appended
as content and does not terminate the statement.  (When the preceding
character is a backslash, the first quote is consumed as a
backslash-escaped quote and the second one closes the string: see the
counterexample.) -/
theorem doubled_quote_stays_in_string (st : SplitState) (prev : Option Char)
    (q : Char) (tail : List Char) (hq : q = '"' ∨ q = '\'')
    (hstr : st.in_string = true) (hcom : st.in_comment = false)
    (hsc : st.string_char = some q) (hprev : prev ≠ some '\\') :
    processChars st prev (q :: q :: ';' :: tail)
      = processChars { st with current := st.current ++ [q, q, ';'] }
          (some ';') tail := by
  rcases hq with hq | hq <;> subst hq <;>
    simp [processChars, quoteStep, hstr, hcom, hsc, hprev]

/-- Witness for `doubled_quote_stays_in_string` at a concrete state. -/
theorem doubled_quote_stays_in_string_witness :
    processChars ⟨[], ("SELECT 'a").data, true, some '\'', false⟩ (some 'a')
        ('\'' :: '\'' :: ';' :: ("b'").data)
      = processChars
          ⟨[], ("SELECT 'a").data ++ ['\'', '\'', ';'], true, some '\'', false⟩
          (some ';') (("b'").data) :=
  doubled_quote_stays_in_string ⟨[], ("SELECT 'a").data, true, some '\'', false⟩
    (some 'a') '\'' (("b'").data) (Or.inr rfl) rfl rfl rfl (by decide)

/-! ## Claim C6: flat-scanner lemmas -/

theorem quoteStep_nonquote (st : SplitState) (p : Option Char) (c : Char)
    (h1 : c ≠ '"') (h2 : c ≠ '\'') : quoteStep st p c = st := by
  simp [quoteStep, h1, h2]

theorem quoteStep_fields (st : SplitState) (p : Option Char) (c : Char)
    (hic : st.in_comment = false) :
    quoteStep st p c
      = { st with
          in_string := (qStep (st.in_string, st.string_char) p c).1,
          string_char := (qStep (st.in_string, st.string_char) p c).2 } := by
  rcases st with ⟨sts, cur, istr, sc, icom⟩
  simp only at hic
  subst hic
  unfold quoteStep qStep
  by_cases hq : c = '"' ∨ c = '\''
  · by_cases hs : istr = false
    · subst hs
      simp [hq]
    · have hs' : istr = true := by
        cases istr
        · exact absurd rfl hs
        · rfl
      subst hs'
      by_cases hm : some c = sc
      · by_cases hp : p = some '\\' <;> simp [hq, hm, hp]
      · simp [hq, hm]
  · simp [hq]

theorem qStep_prev_insens (bsc : Bool × Option Char) (p q : Option Char)
    (c : Char) (hp : p ≠ some '\\') (hq : q ≠ some '\\') :
    qStep bsc p c = qStep bsc q c := by
  unfold qStep
  simp [hp, hq]

theorem prevAfter_append (a : List Char) :
    ∀ (b : List Char) (p : Option Char),
      prevAfter p (a ++ b) = prevAfter (prevAfter p a) b := by
  induction a with
  | nil => intro b p; rfl
  | cons c rest ih =>
    intro b p
    simp only [List.cons_append, prevAfter]
    exact ih b _

theorem flatScan_append (a : List Char) :
    ∀ (b : List Char) (st : SplitState) (p : Option Char),
      flatScan st p (a ++ b) = flatScan (flatScan st p a) (prevAfter p a) b := by
  induction a with
  | nil => intro b st p; rfl
  | cons c rest ih =>
    intro b st p
    simp only [List.cons_append, flatScan, prevAfter]
    by_cases hn : c = '\n'
    · simp only [hn, if_true]
      exact ih b _ _
    · simp only [hn, if_false]
      by_cases hsem : c = ';' ∧ (quoteStep st p c).in_string = false
          ∧ (quoteStep st p c).in_comment = false
      · simp only [if_pos hsem]
        exact ih b _ _
      · simp only [if_neg hsem]
        exact ih b _ _

theorem qState_append (a : List Char) :
    ∀ (b : List Char) (bsc : Bool × Option Char) (p : Option Char),
      qState bsc p (a ++ b) = qState (qState bsc p a) (prevAfter p a) b := by
  induction a with
  | nil => intro b bsc p; rfl
  | cons c rest ih =>
    intro b bsc p
    simp only [List.cons_append, qState, prevAfter]
    by_cases hn : c = '\n'
    · simp only [hn, if_true]
      exact ih b _ _
    · simp only [hn, if_false]
      exact ih b _ _

theorem noBareSemi_append (a : List Char) :
    ∀ (b : List Char) (bsc : Bool × Option Char) (p : Option Char),
      noBareSemi bsc p (a ++ b)
        = (noBareSemi bsc p a
            && noBareSemi (qState bsc p a) (prevAfter p a) b) := by
  induction a with
  | nil => intro b bsc p; rfl
  | cons c rest ih =>
    intro b bsc p
    simp only [List.cons_append, noBareSemi, qState, prevAfter]
    by_cases hn : c = '\n'
    · simp only [hn, if_true]
      exact ih b _ _
    · simp only [hn, if_false]
      by_cases hsem : c = ';' ∧ (qStep bsc p c).1 = false
      · obtain ⟨hc, hf⟩ := hsem
        subst hc
        simp [hf]
      · simp only [if_neg hsem]
        exact ih b _ _

theorem quoteStep_prev_insens (st : SplitState) (p q : Option Char) (c : Char)
    (hp : p ≠ some '\\') (hq : q ≠ some '\\') :
    quoteStep st p c = quoteStep st q c := by
  unfold quoteStep
  simp [hp, hq]

theorem qState_prev_insens (l : List Char) (bsc : Bool × Option Char)
    (p q : Option Char) (hp : p ≠ some '\\') (hq : q ≠ some '\\') :
    qState bsc p l = qState bsc q l := by
  cases l with
  | nil => rfl
  | cons c rest =>
    simp only [qState]
    by_cases hn : c = '\n'
    · simp [hn]
    · simp only [hn, if_false]
      rw [qStep_prev_insens bsc p q c hp hq]

theorem noBareSemi_prev_insens (l : List Char) (bsc : Bool × Option Char)
    (p q : Option Char) (hp : p ≠ some '\\') (hq : q ≠ some '\\') :
    noBareSemi bsc p l = noBareSemi bsc q l := by
  cases l with
  | nil => rfl
  | cons c rest =>
    simp only [noBareSemi]
    by_cases hn : c = '\n'
    · simp [hn]
    · simp only [hn, if_false]
      rw [qStep_prev_insens bsc p q c hp hq]

theorem flatScan_prev_insens (l : List Char) (st : SplitState)
    (p q : Option Char) (hp : p ≠ some '\\') (hq : q ≠ some '\\') :
    flatScan st p l = flatScan st q l := by
  cases l with
  | nil => rfl
  | cons c rest =>
    simp only [flatScan]
    by_cases hn : c = '\n'
    · simp [hn]
    · simp only [hn, if_false]
      rw [quoteStep_prev_insens st p q c hp hq]

theorem isPySpace_not_quote (c : Char) (h : isPySpace c = true) :
    ¬(c = '"' ∨ c = '\'') := by
  intro hq
  rcases hq with hq | hq <;> subst hq <;> simp [isPySpace] at h

theorem qStep_ws (bsc : Bool × Option Char) (p : Option Char) (c : Char)
    (h : isPySpace c = true) : qStep bsc p c = bsc := by
  unfold qStep
  simp [isPySpace_not_quote c h]

theorem qState_ws (w : List Char) :
    ∀ (bsc : Bool × Option Char) (p : Option Char), allWs w →
      qState bsc p w = bsc := by
  induction w with
  | nil => intro bsc p _; rfl
  | cons c rest ih =>
    intro bsc p hw
    have hc : isPySpace c = true := hw c (List.mem_cons_self c rest)
    have hrest : allWs rest := fun x hx => hw x (List.mem_cons_of_mem c hx)
    simp only [qState]
    by_cases hn : c = '\n'
    · simp only [hn, if_true]
      exact ih bsc none hrest
    · simp only [hn, if_false, qStep_ws bsc p c hc]
      exact ih bsc (some c) hrest

theorem noBareSemi_ws (w : List Char) :
    ∀ (bsc : Bool × Option Char) (p : Option Char), allWs w →
      noBareSemi bsc p w = true := by
  induction w with
  | nil => intro bsc p _; rfl
  | cons c rest ih =>
    intro bsc p hw
    have hc : isPySpace c = true := hw c (List.mem_cons_self c rest)
    have hrest : allWs rest := fun x hx => hw x (List.mem_cons_of_mem c hx)
    have hcsemi : c ≠ ';' := by
      intro h
      subst h
      simp [isPySpace] at hc
    simp only [noBareSemi]
    by_cases hn : c = '\n'
    · simp only [hn, if_true]
      exact ih bsc none hrest
    · simp only [hn, if_false, qStep_ws bsc p c hc]
      rw [if_neg (by simp [hcsemi])]
      exact ih bsc (some c) hrest

theorem qStep_lockstep (bsc : Bool × Option Char) (p : Option Char) (c : Char)
    (h : bsc.1 = false → bsc.2 = none) :
    (qStep bsc p c).1 = false → (qStep bsc p c).2 = none := by
  unfold qStep
  split
  · split
    · simp
    · split
      · split
        · exact h
        · simp
      · exact h
  · exact h

theorem qState_lockstep (l : List Char) :
    ∀ (bsc : Bool × Option Char) (p : Option Char),
      (bsc.1 = false → bsc.2 = none) →
      (qState bsc p l).1 = false → (qState bsc p l).2 = none := by
  induction l with
  | nil => intro bsc p h; exact h
  | cons c rest ih =>
    intro bsc p h
    simp only [qState]
    by_cases hn : c = '\n'
    · simp only [hn, if_true]
      exact ih bsc none h
    · simp only [hn, if_false]
      exact ih _ (some c) (qStep_lockstep bsc p c h)

theorem prevAfter_concat (p : Option Char) (a : List Char) (c : Char) :
    prevAfter p (a ++ [c]) = if c = '\n' then none else some c := by
  rw [prevAfter_append]
  rfl

theorem noDD_tail (c : Char) (l : List Char) (h : noDD (c :: l) = true) :
    noDD l = true := by
  cases l with
  | nil => rfl
  | cons b rest =>
    rw [noDD, Bool.and_eq_true] at h
    exact h.2

theorem noDD_pair (a b : Char) (l : List Char) (h : noDD (a :: b :: l) = true) :
    ¬(a = '-' ∧ b = '-') := by
  rw [noDD, Bool.and_eq_true] at h
  intro ⟨ha, hb⟩
  subst ha
  subst hb
  simp at h

theorem noDD_pair_bool (x y : Char) (h : ¬(x = '-' ∧ y = '-')) :
    (!(x = '-' && y = '-')) = true := by
  by_cases hx1 : x = '-'
  · by_cases hy1 : y = '-'
    · exact absurd ⟨hx1, hy1⟩ h
    · simp [hx1, hy1]
  · simp [hx1]

theorem noDD_concat (a : List Char) (c : Char) :
    ∀ (_ : noDD a = true),
      (∀ x, a.getLast? = some x → ¬(x = '-' ∧ c = '-')) →
      noDD (a ++ [c]) = true := by
  induction a with
  | nil => intro _ _; rfl
  | cons x rest ih =>
    intro h hlast
    cases rest with
    | nil =>
      rw [List.cons_append, List.nil_append, noDD, Bool.and_eq_true]
      exact ⟨noDD_pair_bool x c (hlast x rfl), rfl⟩
    | cons y rest' =>
      rw [List.cons_append, List.cons_append, noDD, Bool.and_eq_true]
      have h2 : noDD (y :: rest') = true := noDD_tail x _ h
      have hlast' : ∀ z, (y :: rest').getLast? = some z → ¬(z = '-' ∧ c = '-') := by
        intro z hz
        apply hlast
        rw [List.getLast?_cons_cons]
        exact hz
      have hrec := ih h2 hlast'
      rw [List.cons_append] at hrec
      exact ⟨noDD_pair_bool x y (noDD_pair x y _ h), hrec⟩

theorem noDD_append_split (a : List Char) :
    ∀ (b : List Char), noDD (a ++ b) = true → noDD a = true ∧ noDD b = true := by
  induction a with
  | nil => intro b h; exact ⟨rfl, h⟩
  | cons x rest ih =>
    intro b h
    cases rest with
    | nil =>
      cases b with
      | nil => exact ⟨rfl, rfl⟩
      | cons y bs =>
        rw [List.cons_append, List.nil_append, noDD, Bool.and_eq_true] at h
        exact ⟨rfl, h.2⟩
    | cons y rest' =>
      rw [List.cons_append, List.cons_append, noDD, Bool.and_eq_true] at h
      obtain ⟨h1, h2⟩ := h
      rw [← List.cons_append] at h2
      obtain ⟨ha, hb⟩ := ih b h2
      refine ⟨?_, hb⟩
      rw [noDD, Bool.and_eq_true]
      exact ⟨h1, ha⟩

theorem dropWhile_head_not (p : Char → Bool) (l : List Char) (c : Char)
    (h : (l.dropWhile p).head? = some c) : p c = false := by
  induction l with
  | nil => simp [List.dropWhile] at h
  | cons x xs ih =>
    by_cases hx : p x = true
    · rw [List.dropWhile_cons_of_pos hx] at h
      exact ih h
    · rw [List.dropWhile_cons_of_neg hx] at h
      rw [List.head?_cons] at h
      injection h with h
      subst h
      simpa using hx

theorem allWs_takeWhile (l : List Char) : allWs (l.takeWhile isPySpace) :=
  fun _ hc => List.mem_takeWhile_imp hc

theorem dropTrailing_decomp (p : Char → Bool) (l : List Char) :
    ∃ t, l = dropTrailing p l ++ t ∧ ∀ c ∈ t, p c = true := by
  refine ⟨(l.reverse.takeWhile p).reverse, ?_, ?_⟩
  · have h := congrArg List.reverse (List.takeWhile_append_dropWhile p l.reverse)
    rw [List.reverse_append, List.reverse_reverse] at h
    unfold dropTrailing
    exact h.symm
  · intro c hc
    rw [List.mem_reverse] at hc
    exact List.mem_takeWhile_imp hc

theorem dropTrailing_last_not (p : Char → Bool) (l : List Char) (d : Char)
    (h : (dropTrailing p l).getLast? = some d) : p d = false := by
  unfold dropTrailing at h
  rw [List.getLast?_reverse] at h
  exact dropWhile_head_not p l.reverse d h

theorem dropTrailing_head (p : Char → Bool) (l : List Char) (c : Char)
    (hh : l.head? = some c) (hc : p c = false) :
    (dropTrailing p l).head? = some c := by
  cases l with
  | nil => simp at hh
  | cons x xs =>
    rw [List.head?_cons] at hh
    injection hh with hh
    subst hh
    unfold dropTrailing
    rw [List.reverse_cons, List.dropWhile_append]
    by_cases he : (List.dropWhile p xs.reverse).isEmpty = true
    · rw [if_pos he, List.dropWhile_cons_of_neg (by simp [hc])]
      simp
    · rw [if_neg he, List.reverse_append]
      simp

theorem dropWhile_all (p : Char → Bool) (a : List Char)
    (h : ∀ c ∈ a, p c = true) : a.dropWhile p = [] := by
  induction a with
  | nil => rfl
  | cons x xs ih =>
    rw [List.dropWhile_cons_of_pos (h x (List.mem_cons_self x xs))]
    exact ih fun c hc => h c (List.mem_cons_of_mem x hc)

theorem dropTrailing_append_sat (p : Char → Bool) (x w : List Char)
    (h : ∀ c ∈ w, p c = true) : dropTrailing p (x ++ w) = dropTrailing p x := by
  unfold dropTrailing
  rw [List.reverse_append, List.dropWhile_append,
    dropWhile_all p w.reverse (fun c hc => h c (List.mem_reverse.mp hc))]
  simp

theorem dropWhile_append_head (p : Char → Bool) (x y : List Char) (c : Char)
    (hc : p c = false) :
    (x ++ c :: y).dropWhile p = x.dropWhile p ++ c :: y := by
  rw [List.dropWhile_append]
  by_cases he : (x.dropWhile p).isEmpty = true
  · rw [if_pos he, List.dropWhile_cons_of_neg (by simp [hc]),
      List.isEmpty_iff.mp he]
    rfl
  · rw [if_neg he]

theorem pyStrip_append_ws (x w : List Char) (h : allWs w) :
    pyStrip (x ++ w) = pyStrip x := by
  unfold pyStrip
  rw [List.dropWhile_append]
  by_cases he : (x.dropWhile isPySpace).isEmpty = true
  · rw [if_pos he, dropWhile_all isPySpace w h, List.isEmpty_iff.mp he]
  · rw [if_neg he]
    exact dropTrailing_append_sat isPySpace _ w h

theorem emitStmt_append_ws (X : List (List Char)) (cur w : List Char)
    (h : allWs w) : emitStmt X (cur ++ w) = emitStmt X cur := by
  simp only [emitStmt]
  rw [pyStrip_append_ws cur w h]

theorem stripped_head_not_ws (s : List Char) (hs : pyStrip s = s) (c : Char)
    (hc : s.head? = some c) : isPySpace c = false := by
  obtain ⟨t, hdec, _⟩ := dropTrailing_decomp isPySpace (s.dropWhile isPySpace)
  unfold pyStrip at hs
  rw [hs] at hdec
  apply dropWhile_head_not isPySpace s c
  rw [hdec, List.head?_append, hc]
  rfl

theorem pyStrip_eq_self (l : List Char) (c : Char)
    (hh : l.head? = some c) (hc : isPySpace c = false)
    (hl : ∀ d, l.getLast? = some d → isPySpace d = false) :
    pyStrip l = l := by
  have hld : l.dropWhile isPySpace = l := by
    cases l with
    | nil => rfl
    | cons a as =>
      rw [List.head?_cons] at hh
      injection hh with hh
      subst hh
      exact List.dropWhile_cons_of_neg (by simp [hc])
  unfold pyStrip
  rw [hld]
  rcases List.eq_nil_or_concat l with he | ⟨ys, b, he⟩
  · rw [he]
    rfl
  · rw [List.concat_eq_append] at he
    have hb : isPySpace b = false := by
      apply hl
      rw [he]
      exact List.getLast?_concat ys
    rw [he]
    exact dropTrailing_keep isPySpace ys b hb

theorem qStep_inert (bsc : Bool × Option Char) (p : Option Char) (c : Char)
    (h1 : c ≠ '"') (h2 : c ≠ '\'') : qStep bsc p c = bsc := by
  unfold qStep
  simp [h1, h2]

theorem qState_inert (l : List Char) :
    ∀ (bsc : Bool × Option Char) (p : Option Char),
      (∀ c ∈ l, c ≠ '"' ∧ c ≠ '\'') → qState bsc p l = bsc := by
  induction l with
  | nil => intro bsc p _; rfl
  | cons c rest ih =>
    intro bsc p hq
    have hc := hq c (List.mem_cons_self c rest)
    have hrest : ∀ x ∈ rest, x ≠ '"' ∧ x ≠ '\'' :=
      fun x hx => hq x (List.mem_cons_of_mem c hx)
    simp only [qState]
    by_cases hn : c = '\n'
    · simp only [hn, if_true]
      exact ih bsc none hrest
    · simp only [hn, if_false, qStep_inert bsc p c hc.1 hc.2]
      exact ih bsc (some c) hrest

theorem prevAfter_cases (l : List Char) :
    ∀ p, prevAfter p l = p ∨ prevAfter p l = none
      ∨ ∃ c ∈ l, prevAfter p l = some c := by
  induction l with
  | nil => intro p; exact Or.inl rfl
  | cons c rest ih =>
    intro p
    simp only [prevAfter]
    rcases ih (if c = '\n' then none else some c) with h | h | ⟨d, hd, h⟩
    · rw [h]
      by_cases hn : c = '\n'
      · rw [if_pos hn]
        exact Or.inr (Or.inl rfl)
      · rw [if_neg hn]
        exact Or.inr (Or.inr ⟨c, List.mem_cons_self c rest, rfl⟩)
    · exact Or.inr (Or.inl h)
    · exact Or.inr (Or.inr ⟨d, List.mem_cons_of_mem c hd, h⟩)

theorem prevAfter_ne_bs (l : List Char) (p : Option Char)
    (hp : p ≠ some '\\') (hl : ∀ c ∈ l, c ≠ '\\') :
    prevAfter p l ≠ some '\\' := by
  rcases prevAfter_cases l p with h | h | ⟨c, hc, h⟩
  · rw [h]; exact hp
  · rw [h]; simp
  · rw [h]
    intro he
    injection he with he
    exact hl c hc he

theorem allWs_ne_bs (w : List Char) (h : allWs w) : ∀ c ∈ w, c ≠ '\\' := by
  intro c hc he
  have hcw := h c hc
  rw [he] at hcw
  exact absurd hcw (by decide)

theorem nb_concat_semi (o : List Char)
    (hnb : noBareSemi (false, none) none (o ++ [';']) = true)
    (hq : qState (false, none) none (o ++ [';']) = (false, none)) : False := by
  have hin : ∀ c ∈ ([';'] : List Char), c ≠ '"' ∧ c ≠ '\'' := by
    intro c hc
    rw [List.mem_singleton] at hc
    subst hc
    exact ⟨by decide, by decide⟩
  rw [qState_append, qState_inert [';'] _ _ hin] at hq
  rw [noBareSemi_append, Bool.and_eq_true] at hnb
  have h2 := hnb.2
  rw [hq] at h2
  have hs := qStep_inert (false, none) (prevAfter none o) ';' (by decide) (by decide)
  have hne : (';' : Char) ≠ '\n' := by decide
  simp [noBareSemi, hs, hne] at h2

theorem good_of_decomp (cur lws out junk : List Char)
    (hcur : cur = lws ++ (out ++ junk))
    (hlws : allWs lws)
    (hjunk : ∀ c ∈ junk, isPySpace c = true ∨ c = ';')
    (hstr : pyStrip out = out) (hne : out ≠ [])
    (hnb : noBareSemi (false, none) none cur = true)
    (hq : qState (false, none) none cur = (false, none))
    (hdd : noDD cur = true) : goodStmt out := by
  subst hcur
  have hp1 : prevAfter none lws ≠ some '\\' :=
    prevAfter_ne_bs lws none (by simp) (allWs_ne_bs lws hlws)
  have hjq : ∀ c ∈ junk, c ≠ '"' ∧ c ≠ '\'' := by
    intro c hc
    rcases hjunk c hc with h | h
    · have hnq := isPySpace_not_quote c h
      exact ⟨fun he => hnq (Or.inl he), fun he => hnq (Or.inr he)⟩
    · subst h
      exact ⟨by decide, by decide⟩
  rw [noBareSemi_append, Bool.and_eq_true] at hnb
  have hnb2 := hnb.2
  rw [qState_ws lws _ _ hlws] at hnb2
  rw [noBareSemi_append, Bool.and_eq_true] at hnb2
  have hnbout : noBareSemi (false, none) none out = true := by
    have hx := hnb2.1
    rw [noBareSemi_prev_insens out _ (prevAfter none lws) none hp1 (by simp)] at hx
    exact hx
  rw [qState_append, qState_ws lws _ _ hlws, qState_append,
    qState_inert junk _ _ hjq] at hq
  have hqout : qState (false, none) none out = (false, none) := by
    rw [qState_prev_insens out _ (prevAfter none lws) none hp1 (by simp)] at hq
    exact hq
  have hddout : noDD out = true := by
    obtain ⟨_, h2⟩ := noDD_append_split lws _ hdd
    exact (noDD_append_split out junk h2).1
  have hlast : out.getLast? ≠ some ';' := by
    intro hl
    obtain ⟨o, ho⟩ := List.getLast?_eq_some_iff.mp hl
    subst ho
    exact nb_concat_semi o hnbout hqout
  exact ⟨hne, hstr, hlast, hnbout, hqout, hddout⟩

theorem nb_head_not_semi (cur : List Char) (h : Char)
    (hh : (cur.dropWhile isPySpace).head? = some h)
    (hnb : noBareSemi (false, none) none cur = true) : h ≠ ';' := by
  intro he
  subst he
  cases hc : cur.dropWhile isPySpace with
  | nil => rw [hc] at hh; simp at hh
  | cons x xs =>
    rw [hc] at hh
    rw [List.head?_cons] at hh
    injection hh with hh
    subst hh
    have hsplit := List.takeWhile_append_dropWhile isPySpace cur
    rw [hc] at hsplit
    rw [← hsplit, noBareSemi_append, Bool.and_eq_true] at hnb
    have h2 := hnb.2
    rw [qState_ws _ _ _ (allWs_takeWhile cur)] at h2
    have hs := qStep_inert (false, none)
      (prevAfter none (cur.takeWhile isPySpace)) ';' (by decide) (by decide)
    have hne : (';' : Char) ≠ '\n' := by decide
    simp [noBareSemi, hs, hne] at h2

theorem pyRstripSemi_decomp (y : List Char) :
    ∃ t, y = pyRstripSemi y ++ t ∧ ∀ c ∈ t, c = ';' := by
  obtain ⟨t, h1, h2⟩ := dropTrailing_decomp (fun c => c = ';') y
  exact ⟨t, h1, fun c hc => of_decide_eq_true (h2 c hc)⟩

theorem emit_core_good (cur y junk0 : List Char) (h : Char)
    (hcur : cur = cur.takeWhile isPySpace ++ (y ++ junk0))
    (hj0 : ∀ c ∈ junk0, isPySpace c = true ∨ c = ';')
    (hy : y.head? = some h) (hws : isPySpace h = false) (hsm : h ≠ ';')
    (hnb : noBareSemi (false, none) none cur = true)
    (hq : qState (false, none) none cur = (false, none))
    (hdd : noDD cur = true) :
    goodStmt (pyStrip (pyRstripSemi y)) := by
  have hzh : (pyRstripSemi y).head? = some h :=
    dropTrailing_head _ y h hy (decide_eq_false hsm)
  have hzd : (pyRstripSemi y).dropWhile isPySpace = pyRstripSemi y := by
    cases hz : pyRstripSemi y with
    | nil => rfl
    | cons a as =>
      rw [hz, List.head?_cons] at hzh
      injection hzh with hzh
      subst hzh
      exact List.dropWhile_cons_of_neg (by simp [hws])
  have hso : pyStrip (pyRstripSemi y)
      = dropTrailing isPySpace (pyRstripSemi y) := by
    unfold pyStrip
    rw [hzd]
  have hoh : (pyStrip (pyRstripSemi y)).head? = some h := by
    rw [hso]
    exact dropTrailing_head isPySpace _ h hzh hws
  have hone : pyStrip (pyRstripSemi y) ≠ [] := by
    intro he
    rw [he] at hoh
    simp at hoh
  have hstr : pyStrip (pyStrip (pyRstripSemi y)) = pyStrip (pyRstripSemi y) := by
    apply pyStrip_eq_self _ h hoh hws
    intro d hd
    rw [hso] at hd
    exact dropTrailing_last_not isPySpace _ d hd
  obtain ⟨r1, hy1, hr1⟩ := pyRstripSemi_decomp y
  obtain ⟨w1, hz1, hw1⟩ := dropTrailing_decomp isPySpace (pyRstripSemi y)
  rw [← hso] at hz1
  refine good_of_decomp cur (cur.takeWhile isPySpace) _
    (w1 ++ (r1 ++ junk0)) ?_ (allWs_takeWhile cur) ?_ hstr hone hnb hq hdd
  · have e2 : y = (pyStrip (pyRstripSemi y) ++ w1) ++ r1 := by
      conv_lhs => rw [hy1, hz1]
    conv_lhs => rw [hcur]
    conv_lhs => rw [e2]
    simp [List.append_assoc]
  · intro c hc
    rw [List.mem_append] at hc
    rcases hc with hc | hc
    · exact Or.inl (hw1 c hc)
    · rw [List.mem_append] at hc
      rcases hc with hc | hc
      · exact Or.inr (hr1 c hc)
      · exact hj0 c hc

theorem emit_good (X : List (List Char)) (cur : List Char)
    (hnb : noBareSemi (false, none) none cur = true)
    (hq : qState (false, none) none cur = (false, none))
    (hdd : noDD cur = true) :
    ∀ s ∈ emitStmt X cur, s ∈ X ∨ goodStmt s := by
  intro s hs
  simp only [emitStmt] at hs
  by_cases hg : pyStrip cur ≠ [] ∧ pyStrip cur ≠ [';']
  · rw [if_pos hg] at hs
    rw [List.mem_append, List.mem_singleton] at hs
    rcases hs with hs | hs
    · exact Or.inl hs
    · subst hs
      right
      obtain ⟨w0, h1, h2⟩ := dropTrailing_decomp isPySpace (cur.dropWhile isPySpace)
      have h1' : cur.dropWhile isPySpace = pyStrip cur ++ w0 := h1
      have hyne : pyStrip cur ≠ [] := hg.1
      obtain ⟨hd, hyh⟩ : ∃ c, (pyStrip cur).head? = some c := by
        cases hy0 : pyStrip cur with
        | nil => exact absurd hy0 hyne
        | cons a as => exact ⟨a, rfl⟩
      have hch : (cur.dropWhile isPySpace).head? = some hd := by
        rw [h1', List.head?_append, hyh]
        rfl
      have hws : isPySpace hd = false := dropWhile_head_not isPySpace cur hd hch
      have hsm : hd ≠ ';' := nb_head_not_semi cur hd hch hnb
      have hcur : cur = cur.takeWhile isPySpace ++ (pyStrip cur ++ w0) := by
        conv_lhs => rw [← List.takeWhile_append_dropWhile isPySpace cur]
        rw [h1']
      exact emit_core_good cur (pyStrip cur) w0 hd hcur
        (fun c hc => Or.inl (h2 c hc)) hyh hws hsm hnb hq hdd
  · rw [if_neg hg] at hs
    exact Or.inl hs

theorem emit_good_semi (X : List (List Char)) (cur : List Char)
    (hnb : noBareSemi (false, none) none cur = true)
    (hq : qState (false, none) none cur = (false, none))
    (hdd : noDD cur = true) :
    ∀ s ∈ emitStmt X (cur ++ [';']), s ∈ X ∨ goodStmt s := by
  have hstmt : pyStrip (cur ++ [';']) = cur.dropWhile isPySpace ++ [';'] := by
    unfold pyStrip
    rw [dropWhile_append_head isPySpace cur [] ';' (by decide)]
    exact dropTrailing_keep isPySpace _ ';' (by decide)
  intro s hs
  simp only [emitStmt] at hs
  rw [hstmt] at hs
  by_cases hcore : cur.dropWhile isPySpace = []
  · rw [hcore, List.nil_append] at hs
    rw [if_neg (by simp)] at hs
    exact Or.inl hs
  · obtain ⟨hd, hch⟩ : ∃ c, (cur.dropWhile isPySpace).head? = some c := by
      cases hc : cur.dropWhile isPySpace with
      | nil => exact absurd hc hcore
      | cons a as => exact ⟨a, rfl⟩
    have hws : isPySpace hd = false := dropWhile_head_not isPySpace cur hd hch
    have hsm : hd ≠ ';' := nb_head_not_semi cur hd hch hnb
    have hg : cur.dropWhile isPySpace ++ [';'] ≠ []
        ∧ cur.dropWhile isPySpace ++ [';'] ≠ [';'] := by
      refine ⟨by simp, ?_⟩
      intro he
      apply hcore
      cases hc : cur.dropWhile isPySpace with
      | nil => rfl
      | cons a as =>
        rw [hc] at he
        have hlen := congrArg List.length he
        simp at hlen
    rw [if_pos hg] at hs
    rw [List.mem_append, List.mem_singleton] at hs
    rcases hs with hs | hs
    · exact Or.inl hs
    · subst hs
      right
      have hsemi : pyRstripSemi (cur.dropWhile isPySpace ++ [';'])
          = pyRstripSemi (cur.dropWhile isPySpace) := by
        unfold pyRstripSemi
        exact dropTrailing_drop _ _ ';' (by decide)
      rw [hsemi]
      have hcur : cur = cur.takeWhile isPySpace ++ (cur.dropWhile isPySpace ++ []) := by
        rw [List.append_nil]
        exact (List.takeWhile_append_dropWhile isPySpace cur).symm
      exact emit_core_good cur (cur.dropWhile isPySpace) [] hd hcur
        (fun c hc => absurd hc (List.not_mem_nil c)) hch hws hsm hnb hq hdd

theorem prevAfter_of_getLast (l : List Char) (x : Char)
    (hl : l.getLast? = some x) (hx : x ≠ '\n') :
    prevAfter none l = some x := by
  obtain ⟨a, ha⟩ := List.getLast?_eq_some_iff.mp hl
  subst ha
  rw [prevAfter_concat, if_neg hx]

theorem getLast_coupling (cur : List Char) (p : Option Char) (x : Char)
    (h7 : cur ≠ [] → prevAfter none cur = p)
    (hl : cur.getLast? = some x) : x = '\n' ∨ p = some x := by
  by_cases hx : x = '\n'
  · exact Or.inl hx
  · right
    have hne : cur ≠ [] := by
      intro he
      rw [he] at hl
      simp at hl
    rw [← h7 hne]
    exact prevAfter_of_getLast cur x hl hx

theorem ScanInv_init : ScanInv initSplitState none := by
  refine ⟨?_, rfl, rfl, rfl, by simp [initSplitState], rfl, by simp [initSplitState], ?_⟩
  · intro s hs
    exact absurd hs (List.not_mem_nil s)
  · intro _
    simp

theorem nlStep_inv (st : SplitState) (p : Option Char) (h : ScanInv st p) :
    ScanInv (nlStep st) none := by
  obtain ⟨h1, h2, h3, h4, h5, h6, h7, h8⟩ := h
  unfold nlStep
  by_cases hc : st.current = []
  · rw [if_pos hc]
    exact ⟨h1, h2, h3, h4, h5, h6, fun hne => absurd hc hne, fun _ => by simp⟩
  · rw [if_neg hc]
    refine ⟨h1, ?_, ?_, h4, ?_, ?_, ?_, ?_⟩
    · show noBareSemi (false, none) none (st.current ++ ['\n']) = true
      rw [noBareSemi_append, h2]
      simp [noBareSemi]
    · show qState (false, none) none (st.current ++ ['\n'])
        = (st.in_string, st.string_char)
      rw [qState_append, h3]
      simp [qState]
    · show (st.current ++ ['\n']).head? ≠ some '\n'
      cases hcc : st.current with
      | nil => exact absurd hcc hc
      | cons a as =>
        rw [hcc] at h5
        rw [List.cons_append, List.head?_cons]
        rw [List.head?_cons] at h5
        exact h5
    · show noDD (st.current ++ ['\n']) = true
      exact noDD_concat st.current '\n' h6
        (fun x _ hxe => absurd hxe.2 (by decide))
    · show st.current ++ ['\n'] ≠ [] → prevAfter none (st.current ++ ['\n']) = none
      intro _
      rw [prevAfter_concat]
      simp
    · show st.current ++ ['\n'] = [] → (none : Option Char) ≠ some '\\'
      intro _
      simp

theorem flatScan_inv (t : List Char) :
    ∀ (st : SplitState) (p : Option Char),
      ScanInv st p → noDD (consOpt p t) = true →
      ScanInv (flatScan st p t) (prevAfter p t) := by
  induction t with
  | nil => intro st p h _; exact h
  | cons c rest ih =>
    intro st p h hdd
    have hddr : noDD (c :: rest) = true := by
      cases p with
      | none => exact hdd
      | some d => exact noDD_tail d _ hdd
    have hpair : ∀ d, p = some d → ¬(d = '-' ∧ c = '-') := by
      intro d hp
      rw [hp] at hdd
      exact noDD_pair d c rest hdd
    simp only [flatScan]
    by_cases hn : c = '\n'
    · subst hn
      rw [if_pos rfl]
      have hpa : prevAfter p ('\n' :: rest) = prevAfter none rest := by
        simp [prevAfter]
      rw [hpa]
      exact ih (nlStep st) none (nlStep_inv st p h) (noDD_tail '\n' rest hddr)
    · rw [if_neg hn]
      obtain ⟨h1, h2, h3, h4, h5, h6, h7, h8⟩ := h
      have hpa : prevAfter p (c :: rest) = prevAfter (some c) rest := by
        simp [prevAfter, hn]
      by_cases hsem : c = ';' ∧ (quoteStep st p c).in_string = false
          ∧ (quoteStep st p c).in_comment = false
      · rw [if_pos hsem, hpa]
        obtain ⟨hcs, hfl, _⟩ := hsem
        subst hcs
        have hqs : quoteStep st p ';' = st :=
          quoteStep_nonquote st p ';' (by decide) (by decide)
        rw [hqs] at hfl
        rw [hqs]
        have hl1 : (qState (false, none) none st.current).1 = false := by
          rw [h3, hfl]
        have hsc := qState_lockstep st.current (false, none) none (fun _ => rfl) hl1
        rw [h3] at hsc
        simp only at hsc
        have hqcur : qState (false, none) none st.current = (false, none) := by
          rw [h3, hfl, hsc]
        apply ih _ (some ';') ?_ hddr
        refine ⟨?_, rfl, ?_, h4, by simp, rfl, by simp, fun _ => by decide⟩
        · intro s hs
          rcases emit_good_semi st.statements st.current h2 hqcur h6 s hs with hmem | hg
          · exact h1 s hmem
          · exact hg
        · show qState (false, none) none [] = (st.in_string, st.string_char)
          simp [qState, hfl, hsc]
      · rw [if_neg hsem, hpa]
        have hp' : qStep (st.in_string, st.string_char) (prevAfter none st.current) c
            = qStep (st.in_string, st.string_char) p c := by
          by_cases hcur : st.current = []
          · rw [hcur]
            exact qStep_prev_insens _ none p c (by simp) (h8 hcur)
          · rw [h7 hcur]
        have hns : ¬(c = ';' ∧ (qStep (st.in_string, st.string_char) p c).1 = false) := by
          intro hca
          apply hsem
          refine ⟨hca.1, ?_, ?_⟩
          · rw [quoteStep_fields st p c h4]
            exact hca.2
          · rw [quoteStep_fields st p c h4]
            exact h4
        rw [quoteStep_fields st p c h4]
        apply ih _ (some c) ?_ hddr
        refine ⟨h1, ?_, ?_, h4, ?_, ?_, ?_, ?_⟩
        · show noBareSemi (false, none) none (st.current ++ [c]) = true
          rw [noBareSemi_append, h2]
          simp only [Bool.true_and]
          rw [h3]
          simp only [noBareSemi]
          rw [if_neg hn, hp', if_neg hns]
        · show qState (false, none) none (st.current ++ [c])
            = ((qStep (st.in_string, st.string_char) p c).1,
               (qStep (st.in_string, st.string_char) p c).2)
          rw [qState_append, h3]
          simp only [qState]
          rw [if_neg hn, hp']
        · show (st.current ++ [c]).head? ≠ some '\n'
          cases hcc : st.current with
          | nil => simp [hn]
          | cons a as =>
            rw [hcc] at h5
            rw [List.cons_append, List.head?_cons]
            rw [List.head?_cons] at h5
            exact h5
        · show noDD (st.current ++ [c]) = true
          apply noDD_concat st.current c h6
          intro x hx hxe
          rcases getLast_coupling st.current p x h7 hx with hxn | hpx
          · rw [hxn] at hxe
            exact absurd hxe.1 (by decide)
          · exact hpair x hpx hxe
        · show st.current ++ [c] ≠ [] → prevAfter none (st.current ++ [c]) = some c
          intro _
          rw [prevAfter_concat, if_neg hn]
        · intro he
          exact absurd he (by simp)

theorem processChars_eq_flatScan (l : List Char) :
    ∀ (st : SplitState) (p : Option Char), '\n' ∉ l → noDD l = true →
      processChars st p l = flatScan st p l := by
  induction l with
  | nil => intro st p _ _; rfl
  | cons c rest ih =>
    intro st p hnl hdd
    have hc : c ≠ '\n' := fun h => hnl (h ▸ List.mem_cons_self c rest)
    have hrest : '\n' ∉ rest := fun h => hnl (List.mem_cons_of_mem c h)
    have hddr : noDD rest = true := noDD_tail c rest hdd
    have hcom : ¬(st.in_string = false ∧ c = '-' ∧ rest.head? = some '-') := by
      intro hx
      obtain ⟨_, hc1, hc2⟩ := hx
      cases rest with
      | nil => simp at hc2
      | cons y ys =>
        rw [List.head?_cons] at hc2
        injection hc2 with hc2
        exact noDD_pair c y ys hdd ⟨hc1, hc2⟩
    simp only [processChars, flatScan]
    rw [if_neg hcom, if_neg hc]
    by_cases hsem : c = ';' ∧ (quoteStep st p c).in_string = false
        ∧ (quoteStep st p c).in_comment = false
    · rw [if_pos hsem, if_pos hsem]
      exact ih _ (some c) hrest hddr
    · rw [if_neg hsem, if_neg hsem]
      exact ih _ (some c) hrest hddr

theorem splitNl_append_nl (a : List Char) :
    ∀ b, '\n' ∉ a → splitNl (a ++ '\n' :: b) = a :: splitNl b := by
  induction a with
  | nil => intro b _; simp [splitNl]
  | cons c rest ih =>
    intro b hnl
    have hc : c ≠ '\n' := fun h => hnl (h ▸ List.mem_cons_self c rest)
    have hrest : '\n' ∉ rest := fun h => hnl (List.mem_cons_of_mem c h)
    rw [List.cons_append, splitNl, if_neg hc, ih b hrest]

theorem firstNl_decomp (t : List Char) :
    '\n' ∉ t ∨ ∃ a b, t = a ++ '\n' :: b ∧ '\n' ∉ a := by
  induction t with
  | nil => exact Or.inl (List.not_mem_nil '\n')
  | cons c rest ih =>
    by_cases hc : c = '\n'
    · subst hc
      exact Or.inr ⟨[], rest, rfl, List.not_mem_nil '\n'⟩
    · rcases ih with h | ⟨a, b, hab, hna⟩
      · left
        intro hm
        rcases List.mem_cons.mp hm with hm | hm
        · exact hc hm.symm
        · exact h hm
      · right
        refine ⟨c :: a, b, ?_, ?_⟩
        · rw [hab, List.cons_append]
        · intro hm
          rcases List.mem_cons.mp hm with hm | hm
          · exact hc hm.symm
          · exact hna hm

theorem processLine_eq_nlStep (st : SplitState) (l : List Char) :
    processLine st l = nlStep (processChars st none l) := by
  simp only [processLine, nlStep]
  by_cases hc : (processChars st none l).current = []
  · rw [if_neg (by simp [hc]), if_pos hc]
  · rw [if_pos hc, if_neg hc]

theorem lineScan_eq_flatScan_aux (n : Nat) :
    ∀ (t : List Char) (st : SplitState), t.length ≤ n → noDD t = true →
      (splitNl t).foldl processLine st = nlStep (flatScan st none t) := by
  induction n with
  | zero =>
    intro t st hlen _
    have ht : t = [] := List.length_eq_zero.mp (Nat.le_zero.mp hlen)
    subst ht
    simp only [splitNl, List.foldl_cons, List.foldl_nil]
    rw [processLine_eq_nlStep]
    rfl
  | succ n ih =>
    intro t st hlen hdd
    rcases firstNl_decomp t with hnl | ⟨a, b, hab, hna⟩
    · rw [splitNl_eq_single t hnl, List.foldl_cons, List.foldl_nil,
        processLine_eq_nlStep, processChars_eq_flatScan t st none hnl hdd]
    · subst hab
      obtain ⟨hdda, hddb'⟩ := noDD_append_split a _ hdd
      have hddb : noDD b = true := noDD_tail '\n' b hddb'
      have hlb : b.length ≤ n := by
        rw [List.length_append, List.length_cons] at hlen
        omega
      rw [splitNl_append_nl a b hna, List.foldl_cons,
        ih b (processLine st a) hlb hddb,
        processLine_eq_nlStep, processChars_eq_flatScan a st none hna hdda,
        flatScan_append]
      have hstep : flatScan (flatScan st none a) (prevAfter none a) ('\n' :: b)
          = flatScan (nlStep (flatScan st none a)) none b := by
        simp [flatScan]
      rw [hstep]

theorem lineScan_eq_flatScan (t : List Char) (st : SplitState)
    (hdd : noDD t = true) :
    (splitNl t).foldl processLine st = nlStep (flatScan st none t) :=
  lineScan_eq_flatScan_aux t.length t st (Nat.le_refl _) hdd

theorem joinSemi_nil : joinSemi [] = [] := by
  simp [joinSemi, List.intercalate]

theorem joinSemi_single (s : List Char) : joinSemi [s] = s := by
  simp [joinSemi, List.intercalate]

theorem joinSemi_cons (s t : List Char) (r : List (List Char)) :
    joinSemi (s :: t :: r) = s ++ ';' :: joinSemi (t :: r) := by
  simp [joinSemi, List.intercalate, List.intersperse]

theorem joinSemi_cons_ne (s : List Char) (r : List (List Char)) (h : r ≠ []) :
    joinSemi (s :: r) = s ++ ';' :: joinSemi r := by
  cases r with
  | nil => exact absurd rfl h
  | cons t r2 => exact joinSemi_cons s t r2

theorem noDD_append_intro (a : List Char) :
    ∀ b, noDD a = true → noDD b = true →
      (∀ x y, a.getLast? = some x → b.head? = some y → ¬(x = '-' ∧ y = '-')) →
      noDD (a ++ b) = true := by
  induction a with
  | nil => intro b _ hb _; exact hb
  | cons c rest ih =>
    intro b ha hb hxy
    cases rest with
    | nil =>
      cases b with
      | nil => rfl
      | cons y ys =>
        rw [List.cons_append, List.nil_append, noDD, Bool.and_eq_true]
        exact ⟨noDD_pair_bool c y (hxy c y rfl rfl), hb⟩
    | cons d rest2 =>
      rw [List.cons_append, List.cons_append, noDD, Bool.and_eq_true]
      refine ⟨noDD_pair_bool c d (noDD_pair c d rest2 ha), ?_⟩
      rw [← List.cons_append]
      exact ih b (noDD_tail c _ ha) hb (fun x y hx hy =>
        hxy x y (by rw [List.getLast?_cons_cons]; exact hx) hy)

theorem noDD_joinSemi (L : List (List Char)) (h : ∀ s ∈ L, noDD s = true) :
    noDD (joinSemi L) = true := by
  induction L with
  | nil => rw [joinSemi_nil]; rfl
  | cons s rest ih =>
    cases rest with
    | nil =>
      rw [joinSemi_single]
      exact h s (List.mem_cons_self s [])
    | cons t r =>
      rw [joinSemi_cons]
      refine noDD_append_intro s (';' :: joinSemi (t :: r))
        (h s (List.mem_cons_self s _)) ?_ ?_
      · have hj : noDD (joinSemi (t :: r)) = true :=
          ih (fun x hx => h x (List.mem_cons_of_mem s hx))
        refine noDD_append_intro [';'] (joinSemi (t :: r)) rfl hj ?_
        intro x y hx _ hxy
        have h0 : ([';'] : List Char).getLast? = some ';' := List.getLast?_concat []
        rw [h0] at hx
        injection hx with hx
        rw [← hx] at hxy
        exact absurd hxy.1 (by decide)
      · intro x y _ hy hxy
        rw [List.head?_cons] at hy
        injection hy with hy
        rw [← hy] at hxy
        exact absurd hxy.2 (by decide)

theorem goodStmt_head (s : List Char) (h : goodStmt s) :
    ∃ c, s.head? = some c ∧ isPySpace c = false := by
  obtain ⟨hne, hstr, _, _, _, _⟩ := h
  cases hs : s with
  | nil => exact absurd hs hne
  | cons a as =>
    refine ⟨a, rfl, ?_⟩
    apply stripped_head_not_ws s hstr
    rw [hs]
    rfl

theorem flatScan_accum (s : List Char) :
    ∀ (X : List (List Char)) (c0 : List Char) (b : Bool) (sc : Option Char)
      (p : Option Char),
      noBareSemi (b, sc) p s = true → (c0 = [] → s.head? ≠ some '\n') →
      flatScan ⟨X, c0, b, sc, false⟩ p s
        = ⟨X, c0 ++ s, (qState (b, sc) p s).1, (qState (b, sc) p s).2, false⟩ := by
  induction s with
  | nil =>
    intro X c0 b sc p _ _
    simp [flatScan, qState]
  | cons c rest ih =>
    intro X c0 b sc p hnb hhd
    simp only [flatScan]
    by_cases hn : c = '\n'
    · subst hn
      rw [if_pos rfl]
      have hq : qState (b, sc) p ('\n' :: rest) = qState (b, sc) none rest := by
        simp [qState]
      rw [hq]
      have hc0 : c0 ≠ [] := fun he => hhd he rfl
      have hnb' : noBareSemi (b, sc) none rest = true := by
        simpa [noBareSemi] using hnb
      have hnl : nlStep ⟨X, c0, b, sc, false⟩ = ⟨X, c0 ++ ['\n'], b, sc, false⟩ := by
        simp [nlStep, hc0]
      rw [hnl, ih X (c0 ++ ['\n']) b sc none hnb' (fun he => absurd he (by simp))]
      simp [List.append_assoc]
    · rw [if_neg hn]
      have hq : qState (b, sc) p (c :: rest)
          = qState (qStep (b, sc) p c) (some c) rest := by
        simp [qState, hn]
      rw [hq]
      have hqf : quoteStep ⟨X, c0, b, sc, false⟩ p c
          = ⟨X, c0, (qStep (b, sc) p c).1, (qStep (b, sc) p c).2, false⟩ := by
        rw [quoteStep_fields ⟨X, c0, b, sc, false⟩ p c rfl]
      rw [hqf]
      simp only [noBareSemi] at hnb
      rw [if_neg hn] at hnb
      by_cases hcs : c = ';' ∧ (qStep (b, sc) p c).1 = false
      · rw [if_pos hcs] at hnb
        exact absurd hnb (by simp)
      · rw [if_neg hcs] at hnb
        have hcond : ¬(c = ';'
            ∧ (⟨X, c0, (qStep (b, sc) p c).1, (qStep (b, sc) p c).2, false⟩
                : SplitState).in_string = false
            ∧ (⟨X, c0, (qStep (b, sc) p c).1, (qStep (b, sc) p c).2, false⟩
                : SplitState).in_comment = false) := by
          intro hx
          exact hcs ⟨hx.1, hx.2.1⟩
        rw [if_neg hcond]
        show flatScan ⟨X, c0 ++ [c], (qStep (b, sc) p c).1,
            (qStep (b, sc) p c).2, false⟩ (some c) rest = _
        rw [ih X (c0 ++ [c]) (qStep (b, sc) p c).1 (qStep (b, sc) p c).2
          (some c) hnb (fun he => absurd he (by simp))]
        simp [List.append_assoc]

theorem emit_of_good_semi (X : List (List Char)) (s : List Char) (h : goodStmt s) :
    emitStmt X (s ++ [';']) = X ++ [s] := by
  obtain ⟨hd, hh, hws⟩ := goodStmt_head s h
  obtain ⟨hne, hstr, hlast, _, _, _⟩ := h
  have hdw : (s ++ [';']).dropWhile isPySpace = s ++ [';'] := by
    cases hs : s with
    | nil => exact absurd hs hne
    | cons a as =>
      rw [hs] at hh
      rw [List.head?_cons] at hh
      injection hh with hh
      subst hh
      rw [List.cons_append]
      exact List.dropWhile_cons_of_neg (by simp [hws])
  have hstmt : pyStrip (s ++ [';']) = s ++ [';'] := by
    unfold pyStrip
    rw [hdw]
    exact dropTrailing_keep isPySpace s ';' (by decide)
  simp only [emitStmt]
  rw [hstmt]
  have hg : s ++ [';'] ≠ [] ∧ s ++ [';'] ≠ [';'] := by
    refine ⟨by simp, ?_⟩
    intro he
    apply hne
    cases hs : s with
    | nil => rfl
    | cons a as =>
      rw [hs] at he
      have hlen := congrArg List.length he
      simp at hlen
  rw [if_pos hg]
  have hrs : pyRstripSemi (s ++ [';']) = s := by
    unfold pyRstripSemi
    rw [dropTrailing_drop _ s ';' (by decide)]
    rcases List.eq_nil_or_concat s with he | ⟨ys, d, he⟩
    · exact absurd he hne
    · rw [List.concat_eq_append] at he
      have hdne : d ≠ ';' := by
        intro hdd
        apply hlast
        rw [he, hdd]
        exact List.getLast?_concat ys
      rw [he]
      exact dropTrailing_keep _ ys d (decide_eq_false hdne)
  rw [hrs, hstr]

theorem emit_of_good (X : List (List Char)) (s : List Char) (h : goodStmt s) :
    emitStmt X s = X ++ [s] := by
  obtain ⟨hne, hstr, hlast, _, _, _⟩ := h
  simp only [emitStmt]
  rw [hstr]
  have hg : s ≠ [] ∧ s ≠ [';'] := by
    refine ⟨hne, ?_⟩
    intro he
    apply hlast
    rw [he]
    simp
  rw [if_pos hg]
  have hrs : pyRstripSemi s = s := by
    unfold pyRstripSemi
    rcases List.eq_nil_or_concat s with he | ⟨ys, d, he⟩
    · exact absurd he hne
    · rw [List.concat_eq_append] at he
      have hdne : d ≠ ';' := by
        intro hdd
        apply hlast
        rw [he, hdd]
        exact List.getLast?_concat ys
      rw [he]
      exact dropTrailing_keep _ ys d (decide_eq_false hdne)
  rw [hrs, hstr]

theorem rejoin_core (A : List (List Char)) :
    ∀ (last : List Char) (X : List (List Char)) (p : Option Char),
      (∀ s ∈ A, goodStmt s) → goodStmt last → p ≠ some '\\' →
      flatScan ⟨X, [], false, none, false⟩ p (joinSemi (A ++ [last]))
        = ⟨X ++ A, last, false, none, false⟩ := by
  induction A with
  | nil =>
    intro last X p _ hlast hp
    rw [List.nil_append, joinSemi_single]
    obtain ⟨hd, hh, hws⟩ := goodStmt_head last hlast
    obtain ⟨hne, hstr, hl, hnb, hq, hdd⟩ := hlast
    have hnb' : noBareSemi (false, none) p last = true := by
      rw [noBareSemi_prev_insens last _ p none hp (by simp)]
      exact hnb
    have hhd : ([] : List Char) = [] → last.head? ≠ some '\n' := by
      intro _ he
      rw [he] at hh
      injection hh with hh
      rw [← hh] at hws
      exact absurd hws (by decide)
    rw [flatScan_accum last X [] false none p hnb' hhd]
    have hq' : qState (false, none) p last = (false, none) := by
      rw [qState_prev_insens last _ p none hp (by simp)]
      exact hq
    rw [hq']
    simp
  | cons s A2 ih =>
    intro last X p hA hlast hp
    rw [List.cons_append, joinSemi_cons_ne s (A2 ++ [last]) (by simp)]
    rw [flatScan_append]
    have hgs := hA s (List.mem_cons_self s A2)
    obtain ⟨hd, hh, hws⟩ := goodStmt_head s hgs
    have hnb' : noBareSemi (false, none) p s = true := by
      rw [noBareSemi_prev_insens s _ p none hp (by simp)]
      exact hgs.2.2.2.1
    have hq' : qState (false, none) p s = (false, none) := by
      rw [qState_prev_insens s _ p none hp (by simp)]
      exact hgs.2.2.2.2.1
    have hhd : ([] : List Char) = [] → s.head? ≠ some '\n' := by
      intro _ he
      rw [he] at hh
      injection hh with hh
      rw [← hh] at hws
      exact absurd hws (by decide)
    rw [flatScan_accum s X [] false none p hnb' hhd, hq', List.nil_append]
    simp only [flatScan]
    rw [if_neg (by decide : ¬(';' : Char) = '\n')]
    rw [quoteStep_nonquote _ _ ';' (by decide) (by decide)]
    have hcond : True
        ∧ ((⟨X, s, false, none, false⟩ : SplitState)).in_string = false
        ∧ ((⟨X, s, false, none, false⟩ : SplitState)).in_comment = false :=
      ⟨trivial, rfl, rfl⟩
    rw [if_pos hcond]
    rw [emit_of_good_semi X s hgs]
    show flatScan ⟨X ++ [s], [], false, none, false⟩ (some ';')
      (joinSemi (A2 ++ [last])) = _
    rw [ih last (X ++ [s]) (some ';')
      (fun x hx => hA x (List.mem_cons_of_mem s hx)) hlast (by decide)]
    simp [List.append_assoc]

theorem split_eq_emit (t : List Char) (hdd : noDD t = true) :
    split_sql_statements t
      = (emitStmt (nlStep (flatScan initSplitState none t)).statements
          (nlStep (flatScan initSplitState none t)).current).filter
          (fun s => s ≠ []) := by
  simp only [split_sql_statements]
  rw [lineScan_eq_flatScan t initSplitState hdd]

theorem split_of_good (L : List (List Char)) (hL : ∀ s ∈ L, goodStmt s) :
    split_sql_statements (joinSemi L) = L := by
  rcases List.eq_nil_or_concat L with he | ⟨A, last, he⟩
  · subst he
    rw [joinSemi_nil]
    decide
  · rw [List.concat_eq_append] at he
    subst he
    have hlast : goodStmt last := hL last (by simp)
    have hA : ∀ s ∈ A, goodStmt s := fun s hs => hL s (by simp [hs])
    have hdd : noDD (joinSemi (A ++ [last])) = true := by
      apply noDD_joinSemi
      intro s hs
      exact (hL s hs).2.2.2.2.2
    rw [split_eq_emit _ hdd]
    have hfs : flatScan initSplitState none (joinSemi (A ++ [last]))
        = ⟨A, last, false, none, false⟩ := by
      have hr := rejoin_core A last [] none hA hlast (by simp)
      rw [List.nil_append] at hr
      exact hr
    rw [hfs]
    have hnl : nlStep ⟨A, last, false, none, false⟩
        = ⟨A, last ++ ['\n'], false, none, false⟩ := by
      simp [nlStep, hlast.1]
    rw [hnl]
    show (emitStmt A (last ++ ['\n'])).filter (fun s => s ≠ []) = A ++ [last]
    rw [emitStmt_append_ws A last ['\n']
      (by intro c hc; rw [List.mem_singleton] at hc; subst hc; decide)]
    rw [emit_of_good A last hlast]
    apply List.filter_eq_self.mpr
    intro a ha
    rw [List.mem_append, List.mem_singleton] at ha
    have hane : a ≠ [] := by
      rcases ha with ha | ha
      · exact (hA a ha).1
      · rw [ha]
        exact hlast.1
    simp [hane]

/-! ## Claim C6: idempotence of the splitter under rejoin -/

/-- C6 (counterexample): the splitter is not idempotent under rejoining
with `;`. For the input `SELECT 1 -- c\n;SELECT 2` the splitter returns
two statements, but splitting the `;`-join of that output returns a
single statement: the rejoined separator lands inside the first
statement's trailing line comment and is swallowed by it. -/
theorem splitter_rejoin_counterexample :
    split_sql_statements
        (joinSemi (split_sql_statements ("SELECT 1 -- c\n;SELECT 2").data))
      ≠ split_sql_statements ("SELECT 1 -- c\n;SELECT 2").data := by
  decide

/-- C6 (amended): the splitter is idempotent under its own `';'.join` on
every input that contains no `--` line-comment introducer and whose scan
ends outside a string literal: joining the splitter's output with `;`
separators and splitting again reproduces the same list of statements.
(The original unconditional claim fails when a statement carries a
trailing line comment — see the counterexample — or when an unterminated
string literal protects a semicolon that the final trim re-exposes.) -/
theorem splitter_idempotent (t : List Char)
    (hdd : noDD t = true)
    (hstr : ((splitNl t).foldl processLine initSplitState).in_string = false) :
    split_sql_statements (joinSemi (split_sql_statements t))
      = split_sql_statements t := by
  apply split_of_good
  have hinv := flatScan_inv t initSplitState none ScanInv_init hdd
  obtain ⟨h1, h2, h3, h4, h5, h6, h7, h8⟩ := hinv
  have hline := lineScan_eq_flatScan t initSplitState hdd
  rw [hline] at hstr
  have hfsi : (flatScan initSplitState none t).in_string = false := by
    unfold nlStep at hstr
    by_cases hc : (flatScan initSplitState none t).current = []
    · rw [if_pos hc] at hstr
      exact hstr
    · rw [if_neg hc] at hstr
      exact hstr
  have hl1 : (qState (false, none) none (flatScan initSplitState none t).current).1
      = false := by
    simp [h3, hfsi]
  have hsc := qState_lockstep (flatScan initSplitState none t).current
    (false, none) none (fun _ => rfl) hl1
  rw [h3] at hsc
  simp only at hsc
  have hqcur : qState (false, none) none (flatScan initSplitState none t).current
      = (false, none) := by
    rw [h3, hfsi, hsc]
  have hemit : emitStmt (nlStep (flatScan initSplitState none t)).statements
        (nlStep (flatScan initSplitState none t)).current
      = emitStmt (flatScan initSplitState none t).statements
        (flatScan initSplitState none t).current := by
    unfold nlStep
    by_cases hc : (flatScan initSplitState none t).current = []
    · rw [if_pos hc]
    · rw [if_neg hc]
      show emitStmt (flatScan initSplitState none t).statements
          ((flatScan initSplitState none t).current ++ ['\n'])
        = emitStmt (flatScan initSplitState none t).statements
          (flatScan initSplitState none t).current
      exact emitStmt_append_ws _ _ ['\n']
        (by intro c hc2; rw [List.mem_singleton] at hc2; subst hc2; decide)
  intro s hs
  rw [split_eq_emit t hdd] at hs
  rw [List.mem_filter] at hs
  have hs1 := hs.1
  rw [hemit] at hs1
  rcases emit_good (flatScan initSplitState none t).statements
      (flatScan initSplitState none t).current h2 hqcur h6 s hs1 with hmem | hg
  · exact h1 s hmem
  · exact hg

/-- C6 (witness): the amended idempotence theorem applied to the concrete
two-statement input `SELECT 'a;b';\n SELECT 2`, which has no `--` and
whose scan ends outside a string literal. -/
theorem splitter_idempotent_witness :
    split_sql_statements
        (joinSemi (split_sql_statements ("SELECT 'a;b';\n SELECT 2").data))
      = split_sql_statements ("SELECT 'a;b';\n SELECT 2").data :=
  splitter_idempotent _ (by decide) (by decide)

end Workbench
